import Mathlib

/-!
# Snowflake id generator (lualib-src/lua-snowflake.c)

A shallow embedding of the generator of `lua-snowflake.c`.

* C integers are mathematical integers; where the source narrows or
  reinterprets a value the embedding says so with an explicit `% 2^w`
  (`wrap64`, `wrap16`, `bits`).
* The globals `g_inited` and `g_ctx` are one record `Gen` that every operation
  takes and gives back.
* `gettimeofday` is the environment: the clock is the list of the `timeval`
  readings it will hand out, one per call of `get_timestamp`. An operation
  returns the readings it has not used. `none` means that the readings ran out
  while the code was still asking for one (the spin loop of `wait_next_msec`
  is still spinning).
* `spinlock_lock` / `spinlock_unlock` bracket the body of `next_id` and `init`;
  with a single caller they do nothing and are left out.
-/

namespace Snowflake

/-! ## Constants (lines 22-27) -/

/-- Line 22: `#define MAX_INDEX_VAL 0x3f`, the mask of the 6-bit sequence field. -/
def MAX_INDEX_VAL : Nat := 0x3f

/-- Line 23: `#define MAX_WORKID_VAL 0xff`, the mask of the 8-bit worker id field. -/
def MAX_WORKID_VAL : Nat := 0xff

/-- Line 24: `#define MAX_TIMESTAMP_VAL 0xffffffffff`, the mask of the 40-bit timestamp field. -/
def MAX_TIMESTAMP_VAL : Nat := 0xffffffffff

/-- Line 27: `#define NEW_START_TIME_MS_VAL 1451577600000`, commented `2016/1/1 0:0:0`. -/
def NEW_START_TIME_MS_VAL : Int := 1451577600000

/-! ## Machine integers -/

/-- The value of a mathematical integer stored in an `int64_t` (two's complement). -/
def wrap64 (x : Int) : Int := (x + 2 ^ 63) % 2 ^ 64 - 2 ^ 63

/-- The value of a mathematical integer stored in an `int16_t` (two's complement). -/
def wrap16 (x : Int) : Int := (x + 2 ^ 15) % 2 ^ 16 - 2 ^ 15

/-- The `w`-bit two's complement bit pattern of `x`, read as an unsigned number. -/
def bits (w : Nat) (x : Int) : Nat := (x % 2 ^ w).toNat

/-- The all-bits-set `uint64_t`: what `return -1` yields in a function returning `uint64_t`. -/
def UINT64_MAX : Nat := 2 ^ 64 - 1

/-- The cast `(int64_t)` / `(lua_Integer)` of a `uint64_t` value. -/
def to_int64 (n : Nat) : Int := if n < 2 ^ 63 then (n : Int) else (n : Int) - 2 ^ 64

/-! ## State (lines 32-40) -/

/-- The `struct timeval` as filled in by `gettimeofday`. -/
structure timeval where
  tv_sec : Int
  tv_usec : Int
  deriving DecidableEq, Repr

/-- The record `ctx_t`: `int64_t last_timestamp; int32_t work_id; int16_t index;` -/
structure ctx_t where
  last_timestamp : Int
  work_id : Int
  index : Int
  deriving DecidableEq, Repr

/-- The globals of the file: `g_inited` (an `int` used as a flag) and `g_ctx`. -/
structure Gen where
  g_inited : Int
  g_ctx : ctx_t
  deriving DecidableEq, Repr

/-- The globals as the C initialisers leave them: `g_inited = 0`, `g_ctx = { 0, 0, 0 }`. -/
def Gen.initial : Gen := { g_inited := 0, g_ctx := { last_timestamp := 0, work_id := 0, index := 0 } }

/-! ## Operations -/

/-- Function `get_timestamp` (lines 42-47) on the reading `tv` that `gettimeofday` produced:
`tv.tv_sec * 1000 + tv.tv_usec / 1000 - NEW_START_TIME_MS_VAL` in `int64_t`
arithmetic; C division truncates toward zero. -/
def get_timestamp (tv : timeval) : Int :=
  wrap64 (wrap64 (wrap64 (tv.tv_sec * 1000) + Int.tdiv tv.tv_usec 1000) - NEW_START_TIME_MS_VAL)

/-- Function `wait_next_msec` (lines 49-57): read the clock until a reading is strictly
greater than `last_timestamp`, then store it and reset `index`. -/
def wait_next_msec (c : ctx_t) : List timeval → Option (ctx_t × List timeval)
  | [] => none
  | tv :: rest =>
    let current_timestamp := get_timestamp tv
    if c.last_timestamp ≥ current_timestamp then wait_next_msec c rest
    else some ({ c with last_timestamp := current_timestamp, index := 0 }, rest)

/-- The value computed at lines 76-80 from the updated `g_ctx`:
`((last_timestamp & MAX_TIMESTAMP_VAL) << 24) | ((work_id & MAX_WORKID_VAL) << 16)
 | ((index & MAX_INDEX_VAL) << 10)`, as the `uint64_t` that `next_id` returns.
`last_timestamp` is masked as a 64-bit value; `work_id` and `index` are promoted to
`int` (32 bits) before they are masked. -/
def nextid (c : ctx_t) : Nat :=
  ((((bits 64 c.last_timestamp &&& MAX_TIMESTAMP_VAL) <<< 24) |||
    ((bits 32 c.work_id &&& MAX_WORKID_VAL) <<< 16)) |||
    ((bits 32 c.index &&& MAX_INDEX_VAL) <<< 10)) % 2 ^ 64

/-- The state update of `next_id` (lines 65-75) once the flag has been found set.
`++g_ctx.index` runs only when `index < 0x3f`, so it never leaves the range of
`int16_t` and needs no wrap. -/
def advance (c : ctx_t) : List timeval → Option (ctx_t × List timeval)
  | [] => none
  | tv :: rest =>
    let current_timestamp := get_timestamp tv
    if current_timestamp = c.last_timestamp then
      if c.index < (MAX_INDEX_VAL : Int) then
        some ({ c with index := c.index + 1 }, rest)
      else
        wait_next_msec c rest
    else
      some ({ c with last_timestamp := current_timestamp, index := 0 }, rest)

/-- Function `next_id` (lines 59-83): the returned `uint64_t`, the globals afterwards and the
clock readings left. -/
def next_id (g : Gen) (clock : List timeval) : Option (Nat × Gen × List timeval) :=
  if g.g_inited = 0 then
    some (UINT64_MAX, g, clock)
  else
    match advance g.g_ctx clock with
    | none => none
    | some (c, rest) => some (nextid c, { g with g_ctx := c }, rest)

/-- Function `init` (lines 85-96). The parameter is a `uint16_t`; the result is the returned
`int` and the globals afterwards. -/
def init (g : Gen) (work_id : Int) : Int × Gen :=
  if g.g_inited ≠ 0 then
    (0, g)
  else
    (0, { g_inited := 1, g_ctx := { g.g_ctx with work_id := (bits 16 work_id : Int), index := 0 } })

/-- Function `linit` (lines 98-113), the operation exposed as `init`. `args` is the Lua
argument list, taken at type `lua_Integer` (the exposed signature is
`init(worker_id?: integer)`); `lua_gettop(l) > 0` is `args ≠ []`. An error raised
with `luaL_error` is `Except.error`; `lua_pushboolean(l, 1)` is `Except.ok true`. -/
def linit (g : Gen) (args : List Int) : Except String Bool × Gen :=
  let checked : Except String Int :=
    match args with
    | [] => Except.ok 0
    | id :: _ =>
      if id < 0 ∨ id > (MAX_WORKID_VAL : Int) then
        Except.error ("Work id is in range of 0 - 1023.")
      else
        Except.ok (wrap16 id)
  match checked with
  | Except.error msg => (Except.error msg, g)
  | Except.ok work_id =>
    let r := init g work_id
    if r.1 ≠ 0 then
      (Except.error ("Init instance error, not enough memory."), r.2)
    else
      (Except.ok true, r.2)

/-- Function `lnextid` (lines 115-120): the `lua_Integer` pushed for the caller. -/
def lnextid (g : Gen) (clock : List timeval) : Option (Int × Gen × List timeval) :=
  match next_id g clock with
  | none => none
  | some (id, g1, rest) => some (to_int64 id, g1, rest)

/-! ## Runs -/

/-- The ids returned by `n` successive calls of `next_id` by one caller, with the
globals and the clock readings left after the last call. -/
def next_ids : Nat → Gen → List timeval → Option (List Nat × Gen × List timeval)
  | 0, g, clock => some ([], g, clock)
  | n + 1, g, clock =>
    match next_id g clock with
    | none => none
    | some (id, g1, rest) =>
      match next_ids n g1 rest with
      | none => none
      | some (ids, g2, rest2) => some (id :: ids, g2, rest2)

/-! ## Reading an id -/

/-- Bits 24..63 of an id: the timestamp field. -/
def ts_field (id : Nat) : Nat := id >>> 24

/-- Bits 16..23 of an id: the worker id field. -/
def worker_field (id : Nat) : Nat := (id >>> 16) &&& 0xff

/-- Bits 10..15 of an id: the sequence field. -/
def seq_field (id : Nat) : Nat := (id >>> 10) &&& 0x3f

/-- A clock reading whose epoch-relative millisecond value is `t`
(for `0 ≤ t`, within the range of `int64_t` arithmetic). -/
def at_ms (t : Int) : timeval :=
  { tv_sec := (t + NEW_START_TIME_MS_VAL) / 1000, tv_usec := (t + NEW_START_TIME_MS_VAL) % 1000 * 1000 }

/-! ## Clock conditions -/

/-- The clock never goes backward: every reading is at least the one before it. -/
def NonDecreasing : List timeval → Prop
  | a :: b :: rest => get_timestamp a ≤ get_timestamp b ∧ NonDecreasing (b :: rest)
  | _ => True

/-- Every epoch-relative timestamp read from the clock lies in `[0, 2^40)`. -/
def InRange (clock : List timeval) : Prop :=
  ∀ tv ∈ clock, 0 ≤ get_timestamp tv ∧ get_timestamp tv < 2 ^ 40

instance NonDecreasing.decidable : (clock : List timeval) → Decidable (NonDecreasing clock)
  | [] => isTrue (by simp [NonDecreasing])
  | [_] => isTrue (by simp [NonDecreasing])
  | a :: b :: rest =>
    match Int.decLe (get_timestamp a) (get_timestamp b), NonDecreasing.decidable (b :: rest) with
    | isTrue h1, isTrue h2 => isTrue (by simp only [NonDecreasing]; exact ⟨h1, h2⟩)
    | isFalse h1, _ => isFalse (by simp only [NonDecreasing]; exact fun h => h1 h.1)
    | _, isFalse h2 => isFalse (by simp only [NonDecreasing]; exact fun h => h2 h.2)

instance (clock : List timeval) : Decidable (InRange clock) :=
  inferInstanceAs (Decidable (∀ tv ∈ clock, 0 ≤ get_timestamp tv ∧ get_timestamp tv < 2 ^ 40))

/-- The state of an initialised generator between two calls when the clock does not
go backward and stays in the range of the timestamp field: `index` and
`last_timestamp` are in the range of their fields and no reading still to come is
before `last_timestamp`. -/
def Settled (g : Gen) (clock : List timeval) : Prop :=
  g.g_inited ≠ 0 ∧ (0 ≤ g.g_ctx.index ∧ g.g_ctx.index ≤ 63) ∧
    (0 ≤ g.g_ctx.last_timestamp ∧ g.g_ctx.last_timestamp < 2 ^ 40) ∧
    List.Pairwise (fun a b => get_timestamp a ≤ get_timestamp b) clock ∧ InRange clock ∧
    ∀ x ∈ clock, g.g_ctx.last_timestamp ≤ get_timestamp x

/-- The states of the globals that a single caller can bring about: the C initial
values, then any calls of `init` and `next_id` under any clock. -/
inductive Reachable : Gen → Prop
  | initial : Reachable Gen.initial
  | init (g : Gen) (work_id : Int) : Reachable g → Reachable (init g work_id).2
  | next_id (g : Gen) (clock : List timeval) (id : Nat) (g1 : Gen) (rest : List timeval) :
      Reachable g → next_id g clock = some (id, g1, rest) → Reachable g1

/-- The ids returned by `n` successive calls of `next_id` by one caller, each paired
with the globals that the call returning it left, and the clock readings left at the
end. -/
def next_trace : Nat → Gen → List timeval → Option (List (Nat × Gen) × List timeval)
  | 0, _, clock => some ([], clock)
  | n + 1, g, clock =>
    match next_id g clock with
    | none => none
    | some (id, g1, rest) =>
      match next_trace n g1 rest with
      | none => none
      | some (tr, rest2) => some ((id, g1) :: tr, rest2)

end Snowflake

/-!
# Syslog logger service (service-src/service_ninjalog.c)

A shallow embedding of `ninjalog_create` and of the option parsing of `ninjalog_init`.

* A C string is the list of its characters before the terminating NUL; a `char *` that
  may be `NULL` is an `Option`.
* The constants `LOG_*` come from `<syslog.h>`, which is not part of the repository:
  they are the fields of a parameter `syslog_h`. `glibc` holds the values of the GNU C
  library, for evaluation.
* The call `openlog(ident, option, facility)` is recorded as the triple of its arguments.
  The registration of the callback and the `return 0` that end `ninjalog_init` are left out.
-/

namespace Ninjalog

/-- The constants of `<syslog.h>` that `ninjalog_init` names in `ioptions` (lines 88-112). -/
structure syslog_h where
  LOG_EMERG : Nat
  LOG_ALERT : Nat
  LOG_CRIT : Nat
  LOG_ERR : Nat
  LOG_WARNING : Nat
  LOG_NOTICE : Nat
  LOG_INFO : Nat
  LOG_DEBUG : Nat
  LOG_CONS : Nat
  LOG_NDELAY : Nat
  LOG_PERROR : Nat
  LOG_PID : Nat
  LOG_USER : Nat
  LOG_LOCAL0 : Nat
  LOG_LOCAL1 : Nat
  LOG_LOCAL2 : Nat
  LOG_LOCAL3 : Nat
  LOG_LOCAL4 : Nat
  LOG_LOCAL5 : Nat
  LOG_LOCAL6 : Nat
  LOG_LOCAL7 : Nat
  deriving DecidableEq, Repr

/-- The values of the constants in the GNU C library: priorities 0..7, `LOG_PID = 0x01`,
`LOG_CONS = 0x02`, `LOG_NDELAY = 0x08`, `LOG_PERROR = 0x20`, `LOG_USER = 1 << 3`,
`LOG_LOCALn = (16 + n) << 3`. -/
def glibc : syslog_h :=
  { LOG_EMERG := 0, LOG_ALERT := 1, LOG_CRIT := 2, LOG_ERR := 3, LOG_WARNING := 4,
    LOG_NOTICE := 5, LOG_INFO := 6, LOG_DEBUG := 7,
    LOG_CONS := 0x02, LOG_NDELAY := 0x08, LOG_PERROR := 0x20, LOG_PID := 0x01,
    LOG_USER := 8, LOG_LOCAL0 := 128, LOG_LOCAL1 := 136, LOG_LOCAL2 := 144,
    LOG_LOCAL3 := 152, LOG_LOCAL4 := 160, LOG_LOCAL5 := 168, LOG_LOCAL6 := 176,
    LOG_LOCAL7 := 184 }

/-- The record `struct ninjalog_config` (lines 39-42): `int priority; char* programname;` -/
structure ninjalog_config where
  priority : Nat
  programname : Option (List Char)
  deriving DecidableEq, Repr

/-- Function `ninjalog_create` (lines 44-50). -/
def ninjalog_create (k : syslog_h) : ninjalog_config :=
  { priority := k.LOG_INFO, programname := none }

/-- Line 83: `#define NINJA_SYSLOG_MAX_PRIORITY_POS 7` -/
def NINJA_SYSLOG_MAX_PRIORITY_POS : Nat := 7

/-- Line 84: `#define NINJA_SYSLOG_MAX_OPEN_OPTIONS_POS 11` -/
def NINJA_SYSLOG_MAX_OPEN_OPTIONS_POS : Nat := 11

/-- The table `ioptions` (lines 88-112). -/
def ioptions (k : syslog_h) : List Nat :=
  [k.LOG_EMERG, k.LOG_ALERT, k.LOG_CRIT, k.LOG_ERR, k.LOG_WARNING, k.LOG_NOTICE, k.LOG_INFO,
   k.LOG_DEBUG,
   k.LOG_CONS, k.LOG_NDELAY, k.LOG_PERROR, k.LOG_PID,
   k.LOG_USER, k.LOG_LOCAL0, k.LOG_LOCAL1, k.LOG_LOCAL2, k.LOG_LOCAL3, k.LOG_LOCAL4,
   k.LOG_LOCAL5, k.LOG_LOCAL6, k.LOG_LOCAL7]

/-- The table `coptions` (lines 114-140); the closing `NULL` is the end of the list. -/
def coptions : List (List Char) :=
  ["EMERG".toList, "ALERT".toList, "CRIT".toList, "ERR".toList, "WARNING".toList,
   "NOTICE".toList, "INFO".toList, "DEBUG".toList,
   "CONS".toList, "NDELAY".toList, "PERROR".toList, "PID".toList,
   "USER".toList, "LOCAL0".toList, "LOCAL1".toList, "LOCAL2".toList, "LOCAL3".toList,
   "LOCAL4".toList, "LOCAL5".toList, "LOCAL6".toList, "LOCAL7".toList]

/-- The call `strsep(&next, ",")` on a `next` that is not `NULL`: the token up to the
first comma, and the new `next`, which is the text after that comma, or `NULL` when there
is no comma. -/
def strsep : List Char → List Char × Option (List Char)
  | [] => ([], none)
  | c :: cs =>
    if c = ',' then ([], some cs)
    else ((c :: (strsep cs).1), (strsep cs).2)

/-- The search of lines 165-170: walk `coptions` from `current_pos` until the entry equals
`opt` (`strcmp` returns 0) or the closing `NULL` is reached; the position found, if any. -/
def find_option (opt : List Char) : List (List Char) → Nat → Option Nat
  | [], _ => none
  | current_opt :: more, current_pos =>
    if opt = current_opt then some current_pos
    else find_option opt more (current_pos + 1)

/-- The variables that the token loop updates: `config->priority`, `options`, `facility`. -/
structure parse_state where
  priority : Nat
  options : Nat
  facility : Nat
  deriving DecidableEq, Repr

/-- The body of the token loop (lines 165-179) for the token `opt`. -/
def apply_option (k : syslog_h) (opt : List Char) (st : parse_state) : parse_state :=
  match find_option opt coptions 0 with
  | none => st
  | some current_pos =>
    if current_pos ≤ NINJA_SYSLOG_MAX_PRIORITY_POS then
      { st with priority := (ioptions k).getD current_pos 0 }
    else if current_pos ≤ NINJA_SYSLOG_MAX_OPEN_OPTIONS_POS then
      { st with options := st.options ||| (ioptions k).getD current_pos 0 }
    else
      { st with facility := (ioptions k).getD current_pos 0 }

/-- The token loop `for (opt = strsep(&next, sep); opt; opt = strsep(&next, sep))`
(line 164), guarded by `if (next)`: it ends when `next` is `NULL`. The first argument
bounds the number of iterations. -/
def option_loop (k : syslog_h) : Nat → Option (List Char) → parse_state → parse_state
  | 0, _, st => st
  | _ + 1, none, st => st
  | fuel + 1, some next, st =>
    option_loop k fuel (strsep next).2 (apply_option k (strsep next).1 st)

/-- The arguments of a call `openlog(ident, option, facility)`. -/
structure openlog_args where
  ident : List Char
  option : Nat
  facility : Nat
  deriving DecidableEq, Repr

/-- Function `ninjalog_init` (lines 86-195): the `openlog` call it makes and the
configuration afterwards. Every loop iteration consumes a comma, so `strlen(parm) + 1`
iterations are enough. -/
def ninjalog_init (k : syslog_h) (config : ninjalog_config) (parm : Option (List Char)) :
    openlog_args × ninjalog_config :=
  let default_options := k.LOG_NDELAY ||| k.LOG_PID
  let default_facility := k.LOG_LOCAL6
  match parm with
  | none => ({ ident := "skynet".toList, option := default_options,
               facility := default_facility }, config)
  | some programname =>
    let first := strsep programname
    let st := option_loop k (programname.length + 1) first.2
      { priority := config.priority, options := 0, facility := default_facility }
    let options := if st.options = 0 then default_options else st.options
    ({ ident := first.1, option := options, facility := st.facility },
     { priority := st.priority, programname := some first.1 })

/-! ## The parsing in the words of the specification -/

/-- The comma-separated tokens of the configuration parameter that follow the ident. -/
def option_tokens (parm : List Char) : List (List Char) :=
  (parm.splitOn ',').tail

/-- The priority level that a token names, if it is one of `EMERG` .. `DEBUG`. -/
def priority_named (k : syslog_h) (tok : List Char) : Option Nat :=
  if tok = "EMERG".toList then some k.LOG_EMERG
  else if tok = "ALERT".toList then some k.LOG_ALERT
  else if tok = "CRIT".toList then some k.LOG_CRIT
  else if tok = "ERR".toList then some k.LOG_ERR
  else if tok = "WARNING".toList then some k.LOG_WARNING
  else if tok = "NOTICE".toList then some k.LOG_NOTICE
  else if tok = "INFO".toList then some k.LOG_INFO
  else if tok = "DEBUG".toList then some k.LOG_DEBUG
  else none

/-- The open-option flag that a token names, if it is `CONS`, `NDELAY`, `PERROR` or `PID`. -/
def flag_named (k : syslog_h) (tok : List Char) : Option Nat :=
  if tok = "CONS".toList then some k.LOG_CONS
  else if tok = "NDELAY".toList then some k.LOG_NDELAY
  else if tok = "PERROR".toList then some k.LOG_PERROR
  else if tok = "PID".toList then some k.LOG_PID
  else none

/-- The facility that a token names, if it is `USER` or `LOCAL0` .. `LOCAL7`. -/
def facility_named (k : syslog_h) (tok : List Char) : Option Nat :=
  if tok = "USER".toList then some k.LOG_USER
  else if tok = "LOCAL0".toList then some k.LOG_LOCAL0
  else if tok = "LOCAL1".toList then some k.LOG_LOCAL1
  else if tok = "LOCAL2".toList then some k.LOG_LOCAL2
  else if tok = "LOCAL3".toList then some k.LOG_LOCAL3
  else if tok = "LOCAL4".toList then some k.LOG_LOCAL4
  else if tok = "LOCAL5".toList then some k.LOG_LOCAL5
  else if tok = "LOCAL6".toList then some k.LOG_LOCAL6
  else if tok = "LOCAL7".toList then some k.LOG_LOCAL7
  else none

/-- One step of the fold of the specification: a priority name sets the priority, an
open-option name ORs its flag into the options, a facility name sets the facility, any
other token changes nothing. -/
def spec_step (k : syslog_h) (st : parse_state) (tok : List Char) : parse_state :=
  match priority_named k tok with
  | some level => { st with priority := level }
  | none =>
    match flag_named k tok with
    | some flag => { st with options := st.options ||| flag }
    | none =>
      match facility_named k tok with
      | some fac => { st with facility := fac }
      | none => st

/-- The parsing of the specification: the fold of `spec_step` over the tokens after the
ident, in order, starting from the priority of the configuration, no option and the
default facility `LOG_LOCAL6`. -/
def spec_parse (k : syslog_h) (config : ninjalog_config) (parm : List Char) : parse_state :=
  (option_tokens parm).foldl (spec_step k)
    { priority := config.priority, options := 0, facility := k.LOG_LOCAL6 }

/-- The open-option flags named by the tokens after the ident, in order. -/
def named_flags (k : syslog_h) (parm : List Char) : List Nat :=
  (option_tokens parm).filterMap (flag_named k)

/-- A token that is one of the 21 recognised names. -/
def recognised (tok : List Char) : Bool :=
  decide (tok ∈ coptions)

/-- The configuration parameter with every unrecognised token after the ident deleted. -/
def delete_unrecognised (parm : List Char) : List Char :=
  [','].intercalate
    (parm.takeWhile (fun c => c != ',') :: (option_tokens parm).filter recognised)

end Ninjalog

namespace Snowflake

/-! ## The packed value as arithmetic -/

theorem bits_mod (x : Int) : bits 64 x % 2 ^ 40 = (x % 2 ^ 40).toNat := by
  unfold bits
  omega

theorem bits32_mod8 (x : Int) : bits 32 x % 2 ^ 8 = (x % 2 ^ 8).toNat := by
  unfold bits
  omega

theorem bits32_mod6 (x : Int) : bits 32 x % 2 ^ 6 = (x % 2 ^ 6).toNat := by
  unfold bits
  omega

theorem or_shift_eq_add (a b c : Nat) (hb : b < 2 ^ 8) (hc : c < 2 ^ 6) :
    ((a <<< 24) ||| (b <<< 16)) ||| (c <<< 10) = a * 2 ^ 24 + b * 2 ^ 16 + c * 2 ^ 10 := by
  have h1 : c <<< 10 < 2 ^ 16 := by rw [Nat.shiftLeft_eq]; omega
  have h2 : (b <<< 16) ||| (c <<< 10) = b * 2 ^ 16 + c * 2 ^ 10 := by
    rw [Nat.shiftLeft_eq b 16, Nat.mul_comm b, ← Nat.mul_add_lt_is_or h1, Nat.shiftLeft_eq]
  have h3 : b * 2 ^ 16 + c * 2 ^ 10 < 2 ^ 24 := by omega
  rw [Nat.or_assoc, h2, Nat.shiftLeft_eq a 24, Nat.mul_comm a, ← Nat.mul_add_lt_is_or h3]
  omega

theorem nextid_eq (c : ctx_t) :
    nextid c = (c.last_timestamp % 2 ^ 40).toNat * 2 ^ 24 + (c.work_id % 2 ^ 8).toNat * 2 ^ 16
      + (c.index % 2 ^ 6).toNat * 2 ^ 10 := by
  unfold nextid
  have e1 : MAX_TIMESTAMP_VAL = 2 ^ 40 - 1 := by decide
  have e2 : MAX_WORKID_VAL = 2 ^ 8 - 1 := by decide
  have e3 : MAX_INDEX_VAL = 2 ^ 6 - 1 := by decide
  rw [e1, e2, e3, Nat.and_pow_two_sub_one_eq_mod, Nat.and_pow_two_sub_one_eq_mod,
    Nat.and_pow_two_sub_one_eq_mod, bits_mod, bits32_mod8, bits32_mod6]
  have hb : (c.work_id % 2 ^ 8).toNat < 2 ^ 8 := by omega
  have hc : (c.index % 2 ^ 6).toNat < 2 ^ 6 := by omega
  have ha : (c.last_timestamp % 2 ^ 40).toNat < 2 ^ 40 := by omega
  rw [or_shift_eq_add _ _ _ hb hc]
  omega


theorem nextid_mod_1024 (c : ctx_t) : nextid c % 1024 = 0 := by
  rw [nextid_eq]
  omega

theorem nextid_lt (c : ctx_t) : nextid c < 2 ^ 64 := by
  rw [nextid_eq]
  have hb : (c.work_id % 2 ^ 8).toNat < 2 ^ 8 := by omega
  have hc : (c.index % 2 ^ 6).toNat < 2 ^ 6 := by omega
  have ha : (c.last_timestamp % 2 ^ 40).toNat < 2 ^ 40 := by omega
  omega

theorem ts_field_nextid (c : ctx_t) : ts_field (nextid c) = (c.last_timestamp % 2 ^ 40).toNat := by
  unfold ts_field
  rw [Nat.shiftRight_eq_div_pow, nextid_eq]
  have hb : (c.work_id % 2 ^ 8).toNat < 2 ^ 8 := by omega
  have hc : (c.index % 2 ^ 6).toNat < 2 ^ 6 := by omega
  omega

theorem worker_field_eq (id : Nat) : worker_field id = id / 2 ^ 16 % 2 ^ 8 := by
  unfold worker_field
  rw [Nat.shiftRight_eq_div_pow]
  exact Nat.and_pow_two_sub_one_eq_mod _ 8

theorem seq_field_eq (id : Nat) : seq_field id = id / 2 ^ 10 % 2 ^ 6 := by
  unfold seq_field
  rw [Nat.shiftRight_eq_div_pow]
  exact Nat.and_pow_two_sub_one_eq_mod _ 6

theorem worker_field_nextid (c : ctx_t) : worker_field (nextid c) = (c.work_id % 2 ^ 8).toNat := by
  rw [worker_field_eq, nextid_eq]
  have hb : (c.work_id % 2 ^ 8).toNat < 2 ^ 8 := by omega
  have hc : (c.index % 2 ^ 6).toNat < 2 ^ 6 := by omega
  omega

theorem seq_field_nextid (c : ctx_t) : seq_field (nextid c) = (c.index % 2 ^ 6).toNat := by
  rw [seq_field_eq, nextid_eq]
  have hb : (c.work_id % 2 ^ 8).toNat < 2 ^ 8 := by omega
  have hc : (c.index % 2 ^ 6).toNat < 2 ^ 6 := by omega
  omega

/-! ## Clock readings -/

/-- The reading `at_ms t` has epoch-relative timestamp `t`. -/
theorem get_timestamp_at_ms (t : Int) (h : -(2 ^ 60) ≤ t ∧ t ≤ 2 ^ 60) :
    get_timestamp (at_ms t) = t := by
  have hdiv : Int.tdiv ((t + 1451577600000) % 1000 * 1000) 1000 =
      (t + 1451577600000) % 1000 * 1000 / 1000 :=
    Int.tdiv_eq_ediv (by omega) (by decide)
  unfold get_timestamp at_ms wrap64 NEW_START_TIME_MS_VAL
  simp only
  rw [hdiv]
  omega

/-! ## One call -/

theorem nonDecreasing_iff_pairwise (clock : List timeval) :
    NonDecreasing clock ↔ List.Pairwise (fun a b => get_timestamp a ≤ get_timestamp b) clock := by
  haveI : IsTrans timeval (fun a b => get_timestamp a ≤ get_timestamp b) :=
    ⟨fun _ _ _ h1 h2 => le_trans h1 h2⟩
  rw [← List.chain'_iff_pairwise]
  induction clock with
  | nil => simp [NonDecreasing]
  | cons a tl ih =>
    cases tl with
    | nil => simp [NonDecreasing]
    | cons b rest =>
      simp only [NonDecreasing, List.chain'_cons]
      exact Iff.and Iff.rfl ih

/-- What `wait_next_msec` returns: it skips a prefix of readings that are not after
`last_timestamp` and stops at the first reading that is. -/
theorem wait_next_msec_spec (c : ctx_t) :
    ∀ (clock : List timeval) (c1 : ctx_t) (rest : List timeval),
      wait_next_msec c clock = some (c1, rest) →
      ∃ pre tv, clock = pre ++ tv :: rest ∧ (∀ x ∈ pre, get_timestamp x ≤ c.last_timestamp) ∧
        c.last_timestamp < get_timestamp tv ∧
        c1 = { c with last_timestamp := get_timestamp tv, index := 0 } := by
  intro clock
  induction clock with
  | nil => intro c1 rest h; simp [wait_next_msec] at h
  | cons tv tl ih =>
    intro c1 rest h
    simp only [wait_next_msec] at h
    by_cases hge : c.last_timestamp ≥ get_timestamp tv
    · rw [if_pos hge] at h
      obtain ⟨pre, tv2, hcl, hpre, hlt, hc1⟩ := ih c1 rest h
      refine ⟨tv :: pre, tv2, by rw [hcl]; rfl, ?_, hlt, hc1⟩
      intro x hx
      rcases List.mem_cons.mp hx with hx | hx
      · rw [hx]; exact hge
      · exact hpre x hx
    · rw [if_neg hge] at h
      simp only [Option.some.injEq, Prod.mk.injEq] at h
      exact ⟨[], tv, by rw [← h.2]; rfl, by simp, by omega, h.1.symm⟩

/-- The spin loop ends as soon as the clock holds a reading after `last_timestamp`. -/
theorem wait_next_msec_isSome (c : ctx_t) (clock : List timeval) :
    (wait_next_msec c clock).isSome ↔ ∃ tv ∈ clock, c.last_timestamp < get_timestamp tv := by
  induction clock with
  | nil => simp [wait_next_msec]
  | cons tv tl ih =>
    simp only [wait_next_msec]
    by_cases hge : c.last_timestamp ≥ get_timestamp tv
    · rw [if_pos hge, ih]
      constructor
      · rintro ⟨x, hx, hlt⟩
        exact ⟨x, List.mem_cons_of_mem _ hx, hlt⟩
      · rintro ⟨x, hx, hlt⟩
        rcases List.mem_cons.mp hx with hx | hx
        · subst hx; omega
        · exact ⟨x, hx, hlt⟩
    · rw [if_neg hge]
      simp only [Option.isSome_some, true_iff]
      exact ⟨tv, List.mem_cons_self _ _, by omega⟩

/-- The three branches of the state update of `next_id`. -/
theorem advance_spec (c : ctx_t) (clock : List timeval) (c1 : ctx_t) (rest : List timeval)
    (h : advance c clock = some (c1, rest)) :
    ∃ tv tl, clock = tv :: tl ∧
      ((get_timestamp tv = c.last_timestamp ∧ c.index < 63 ∧
          c1 = { c with index := c.index + 1 } ∧ rest = tl) ∨
       (get_timestamp tv = c.last_timestamp ∧ 63 ≤ c.index ∧
          wait_next_msec c tl = some (c1, rest)) ∨
       (get_timestamp tv ≠ c.last_timestamp ∧
          c1 = { c with last_timestamp := get_timestamp tv, index := 0 } ∧ rest = tl)) := by
  cases clock with
  | nil => simp [advance] at h
  | cons tv tl =>
    refine ⟨tv, tl, rfl, ?_⟩
    simp only [advance] at h
    by_cases heq : get_timestamp tv = c.last_timestamp
    · rw [if_pos heq] at h
      by_cases hlt : c.index < (MAX_INDEX_VAL : Int)
      · rw [if_pos hlt] at h
        simp only [Option.some.injEq, Prod.mk.injEq] at h
        have h63 : ((MAX_INDEX_VAL : Nat) : Int) = 63 := by decide
        exact Or.inl ⟨heq, by omega, h.1.symm, h.2.symm⟩
      · rw [if_neg hlt] at h
        have h63 : ((MAX_INDEX_VAL : Nat) : Int) = 63 := by decide
        exact Or.inr (Or.inl ⟨heq, by omega, h⟩)
    · rw [if_neg heq] at h
      simp only [Option.some.injEq, Prod.mk.injEq] at h
      exact Or.inr (Or.inr ⟨heq, h.1.symm, h.2.symm⟩)

/-- When the state update of `next_id` produces a state. -/
theorem advance_isSome (c : ctx_t) (tv : timeval) (tl : List timeval) :
    (advance c (tv :: tl)).isSome ↔
      (get_timestamp tv ≠ c.last_timestamp ∨ c.index < 63 ∨
        ∃ x ∈ tl, c.last_timestamp < get_timestamp x) := by
  have h63 : ((MAX_INDEX_VAL : Nat) : Int) = 63 := by decide
  simp only [advance]
  by_cases heq : get_timestamp tv = c.last_timestamp
  · rw [if_pos heq]
    by_cases hlt : c.index < (MAX_INDEX_VAL : Int)
    · rw [if_pos hlt]
      simp only [Option.isSome_some, true_iff]
      exact Or.inr (Or.inl (by omega))
    · rw [if_neg hlt, wait_next_msec_isSome]
      constructor
      · intro h; exact Or.inr (Or.inr h)
      · rintro (h | h | h)
        · exact absurd heq h
        · omega
        · exact h
  · rw [if_neg heq]
    simp only [Option.isSome_some, true_iff]
    exact Or.inl heq

theorem next_id_inited (g : Gen) (clock : List timeval) (hinit : g.g_inited ≠ 0) :
    next_id g clock =
      match advance g.g_ctx clock with
      | none => none
      | some (c, rest) => some (nextid c, { g with g_ctx := c }, rest) := by
  unfold next_id
  rw [if_neg hinit]

/-- An initialised `next_id` that returns has updated the state with `advance` and
returns the packed value of the updated state. -/
theorem next_id_some (g : Gen) (clock : List timeval) (hinit : g.g_inited ≠ 0)
    (id : Nat) (g1 : Gen) (rest : List timeval) (h : next_id g clock = some (id, g1, rest)) :
    advance g.g_ctx clock = some (g1.g_ctx, rest) ∧ id = nextid g1.g_ctx ∧
      g1.g_inited = g.g_inited := by
  rw [next_id_inited g clock hinit] at h
  cases hadv : advance g.g_ctx clock with
  | none => rw [hadv] at h; simp at h
  | some p =>
    obtain ⟨c, r⟩ := p
    rw [hadv] at h
    simp only [Option.some.injEq, Prod.mk.injEq] at h
    obtain ⟨h1, h2, h3⟩ := h
    subst h1 h2 h3
    exact ⟨rfl, rfl, rfl⟩

theorem next_id_isSome (g : Gen) (tv : timeval) (tl : List timeval) (hinit : g.g_inited ≠ 0) :
    (next_id g (tv :: tl)).isSome ↔
      (get_timestamp tv ≠ g.g_ctx.last_timestamp ∨ g.g_ctx.index < 63 ∨
        ∃ x ∈ tl, g.g_ctx.last_timestamp < get_timestamp x) := by
  rw [next_id_inited g _ hinit, ← advance_isSome]
  cases advance g.g_ctx (tv :: tl) with
  | none => simp
  | some p => simp

/-- The state update keeps the worker id. -/
theorem advance_work_id (c : ctx_t) (clock : List timeval) (c1 : ctx_t) (rest : List timeval)
    (h : advance c clock = some (c1, rest)) : c1.work_id = c.work_id := by
  obtain ⟨tv, tl, _, h1 | h1 | h1⟩ := advance_spec c clock c1 rest h
  · rw [h1.2.2.1]
  · obtain ⟨_, _, _, _, _, hc1⟩ := wait_next_msec_spec c tl c1 rest h1.2.2
    rw [hc1]
  · rw [h1.2.1]

/-- The state update leaves a suffix of the clock. -/
theorem advance_suffix (c : ctx_t) (clock : List timeval) (c1 : ctx_t) (rest : List timeval)
    (h : advance c clock = some (c1, rest)) : ∃ used, used ≠ [] ∧ clock = used ++ rest := by
  obtain ⟨tv, tl, hcl, h1 | h1 | h1⟩ := advance_spec c clock c1 rest h
  · exact ⟨[tv], by simp, by rw [hcl, h1.2.2.2]; rfl⟩
  · obtain ⟨pre, tv2, htl, _, _, _⟩ := wait_next_msec_spec c tl c1 rest h1.2.2
    exact ⟨tv :: (pre ++ [tv2]), by simp, by rw [hcl, htl]; simp⟩
  · exact ⟨[tv], by simp, by rw [hcl, h1.2.2]; rfl⟩

/-- With a clock that does not go backward and stays in range, one state update
leaves the generator settled, whatever `last_timestamp` was before. -/
theorem advance_post (c : ctx_t) (clock : List timeval) (c1 : ctx_t) (rest : List timeval)
    (hmono : List.Pairwise (fun a b => get_timestamp a ≤ get_timestamp b) clock)
    (hrange : InRange clock) (hidx : -1 ≤ c.index)
    (h : advance c clock = some (c1, rest)) :
    (0 ≤ c1.index ∧ c1.index ≤ 63) ∧ (0 ≤ c1.last_timestamp ∧ c1.last_timestamp < 2 ^ 40) ∧
      List.Pairwise (fun a b => get_timestamp a ≤ get_timestamp b) rest ∧ InRange rest ∧
      ∀ x ∈ rest, c1.last_timestamp ≤ get_timestamp x := by
  obtain ⟨used, _, hused⟩ := advance_suffix c clock c1 rest h
  have hmono2 : List.Pairwise (fun a b => get_timestamp a ≤ get_timestamp b) rest := by
    rw [hused] at hmono
    exact (List.pairwise_append.mp hmono).2.1
  have hrange2 : InRange rest := by
    intro x hx
    exact hrange x (by rw [hused]; exact List.mem_append_right _ hx)
  obtain ⟨tv, tl, hcl, h1 | h1 | h1⟩ := advance_spec c clock c1 rest h
  · obtain ⟨heq, hlt, hc1, hrest⟩ := h1
    have htv := hrange tv (by rw [hcl]; exact List.mem_cons_self _ _)
    rw [hcl] at hmono
    have hfst := (List.pairwise_cons.mp hmono).1
    refine ⟨?_, ?_, hmono2, hrange2, ?_⟩
    · rw [hc1]; constructor <;> simp only <;> omega
    · rw [hc1]; constructor <;> simp only <;> omega
    · intro x hx
      rw [hc1]; simp only
      rw [← heq]
      exact hfst x (by rw [← hrest]; exact hx)
  · obtain ⟨heq, hge, hw⟩ := h1
    obtain ⟨pre, tv2, htl, _, hlt2, hc1⟩ := wait_next_msec_spec c tl c1 rest hw
    have htv2 := hrange tv2 (by rw [hcl, htl]; simp)
    rw [hcl, htl] at hmono
    have htlp := (List.pairwise_cons.mp hmono).2
    have hcons := (List.pairwise_append.mp htlp).2.1
    have hfst := (List.pairwise_cons.mp hcons).1
    refine ⟨?_, ?_, hmono2, hrange2, ?_⟩
    · rw [hc1]; constructor <;> simp only <;> omega
    · rw [hc1]; exact htv2
    · intro x hx
      rw [hc1]; simp only
      exact hfst x hx
  · obtain ⟨hne, hc1, hrest⟩ := h1
    have htv := hrange tv (by rw [hcl]; exact List.mem_cons_self _ _)
    rw [hcl] at hmono
    have hfst := (List.pairwise_cons.mp hmono).1
    refine ⟨?_, ?_, hmono2, hrange2, ?_⟩
    · rw [hc1]; constructor <;> simp only <;> omega
    · rw [hc1]; exact htv
    · intro x hx
      rw [hc1]; simp only
      exact hfst x (by rw [← hrest]; exact hx)

/-- When no reading to come is before `last_timestamp`, one state update moves the
pair (`last_timestamp`, `index`) strictly up in lexicographic order. -/
theorem advance_key_lt (c : ctx_t) (clock : List timeval) (c1 : ctx_t) (rest : List timeval)
    (hle : ∀ x ∈ clock, c.last_timestamp ≤ get_timestamp x)
    (h : advance c clock = some (c1, rest)) :
    c.last_timestamp < c1.last_timestamp ∨
      (c1.last_timestamp = c.last_timestamp ∧ c1.index = c.index + 1 ∧ c.index < 63) := by
  obtain ⟨tv, tl, hcl, h1 | h1 | h1⟩ := advance_spec c clock c1 rest h
  · obtain ⟨_, hlt, hc1, _⟩ := h1
    right
    rw [hc1]
    exact ⟨rfl, rfl, hlt⟩
  · obtain ⟨_, _, _, _, hlt2, hc1⟩ := wait_next_msec_spec c tl c1 rest h1.2.2
    left
    rw [hc1]
    exact hlt2
  · obtain ⟨hne, hc1, _⟩ := h1
    have := hle tv (by rw [hcl]; exact List.mem_cons_self _ _)
    left
    rw [hc1]
    simp only
    omega

/-- The packed value is strictly monotone in (`last_timestamp`, `index`) while both
are in the range of their fields and the worker id is fixed. -/
theorem nextid_lt_nextid (c c1 : ctx_t) (hw : c1.work_id = c.work_id)
    (hi : 0 ≤ c.index ∧ c.index ≤ 63) (ht : 0 ≤ c.last_timestamp ∧ c.last_timestamp < 2 ^ 40)
    (hi1 : 0 ≤ c1.index ∧ c1.index ≤ 63)
    (ht1 : 0 ≤ c1.last_timestamp ∧ c1.last_timestamp < 2 ^ 40)
    (hkey : c.last_timestamp < c1.last_timestamp ∨
      (c1.last_timestamp = c.last_timestamp ∧ c.index < c1.index)) :
    nextid c < nextid c1 := by
  rw [nextid_eq, nextid_eq, hw]
  have hb : (c.work_id % 2 ^ 8).toNat < 2 ^ 8 := by omega
  omega

/-! ## Runs of calls -/

theorem next_ids_succ_some (n : Nat) (g : Gen) (clock : List timeval) (ids : List Nat)
    (g2 : Gen) (rest2 : List timeval) (h : next_ids (n + 1) g clock = some (ids, g2, rest2)) :
    ∃ id g1 rest ids1, next_id g clock = some (id, g1, rest) ∧
      next_ids n g1 rest = some (ids1, g2, rest2) ∧ ids = id :: ids1 := by
  simp only [next_ids] at h
  cases h1 : next_id g clock with
  | none => rw [h1] at h; simp at h
  | some p =>
    obtain ⟨id, g1, rest⟩ := p
    rw [h1] at h
    simp only at h
    cases h2 : next_ids n g1 rest with
    | none => rw [h2] at h; simp at h
    | some q =>
      obtain ⟨ids1, g3, rest3⟩ := q
      rw [h2] at h
      simp only [Option.some.injEq, Prod.mk.injEq] at h
      obtain ⟨e1, e2, e3⟩ := h
      subst e1 e2 e3
      exact ⟨id, g1, rest, ids1, rfl, h2, rfl⟩

/-- One call on a settled generator: the generator stays settled and the returned id
is above the packed value of the state before. -/
theorem next_id_settled (g : Gen) (clock : List timeval) (id : Nat) (g1 : Gen)
    (rest : List timeval) (hs : Settled g clock) (h : next_id g clock = some (id, g1, rest)) :
    Settled g1 rest ∧ id = nextid g1.g_ctx ∧ nextid g.g_ctx < id := by
  obtain ⟨hinit, hidx, hts, hmono, hrange, hle⟩ := hs
  obtain ⟨hadv, hid, hflag⟩ := next_id_some g clock hinit id g1 rest h
  obtain ⟨hidx1, hts1, hmono1, hrange1, hle1⟩ :=
    advance_post g.g_ctx clock g1.g_ctx rest hmono hrange (by omega) hadv
  have hw := advance_work_id g.g_ctx clock g1.g_ctx rest hadv
  have hkey := advance_key_lt g.g_ctx clock g1.g_ctx rest hle hadv
  refine ⟨⟨by rw [hflag]; exact hinit, hidx1, hts1, hmono1, hrange1, hle1⟩, hid, ?_⟩
  rw [hid]
  apply nextid_lt_nextid g.g_ctx g1.g_ctx hw hidx hts hidx1 hts1
  rcases hkey with hk | hk
  · exact Or.inl hk
  · exact Or.inr ⟨hk.1, by omega⟩

/-- The first call of a run: whatever `last_timestamp` was, the generator is settled
afterwards. -/
theorem next_id_first (g : Gen) (clock : List timeval) (id : Nat) (g1 : Gen)
    (rest : List timeval) (hinit : g.g_inited ≠ 0)
    (hidx : 0 ≤ g.g_ctx.index ∧ g.g_ctx.index ≤ 63)
    (hmono : NonDecreasing clock) (hrange : InRange clock)
    (h : next_id g clock = some (id, g1, rest)) :
    Settled g1 rest ∧ id = nextid g1.g_ctx := by
  obtain ⟨hadv, hid, hflag⟩ := next_id_some g clock hinit id g1 rest h
  obtain ⟨hidx1, hts1, hmono1, hrange1, hle1⟩ :=
    advance_post g.g_ctx clock g1.g_ctx rest ((nonDecreasing_iff_pairwise clock).mp hmono)
      hrange (by omega) hadv
  exact ⟨⟨by rw [hflag]; exact hinit, hidx1, hts1, hmono1, hrange1, hle1⟩, hid⟩

/-- The ids of a run on a settled generator increase strictly and are all above the
packed value of the starting state. -/
theorem next_ids_settled :
    ∀ (n : Nat) (g : Gen) (clock : List timeval) (ids : List Nat) (g2 : Gen)
      (rest2 : List timeval), Settled g clock → next_ids n g clock = some (ids, g2, rest2) →
      List.Pairwise (fun a b => a < b) ids ∧ ∀ id ∈ ids, nextid g.g_ctx < id := by
  intro n
  induction n with
  | zero =>
    intro g clock ids g2 rest2 _ h
    simp only [next_ids, Option.some.injEq, Prod.mk.injEq] at h
    rw [← h.1]
    exact ⟨List.Pairwise.nil, by simp⟩
  | succ n ih =>
    intro g clock ids g2 rest2 hs h
    obtain ⟨id, g1, rest, ids1, h1, h2, hids⟩ := next_ids_succ_some n g clock ids g2 rest2 h
    obtain ⟨hs1, hid, hlt⟩ := next_id_settled g clock id g1 rest hs h1
    obtain ⟨hpw, hall⟩ := ih g1 rest ids1 g2 rest2 hs1 h2
    rw [hids]
    constructor
    · refine List.pairwise_cons.mpr ⟨?_, hpw⟩
      intro b hb
      have := hall b hb
      omega
    · intro b hb
      rcases List.mem_cons.mp hb with hb | hb
      · rw [hb]; exact hlt
      · have := hall b hb
        omega

/-- With a clock that does not go backward and stays in `[0, 2^40)`, the ids returned
by successive calls increase strictly, as unsigned 64-bit numbers. -/
theorem next_ids_increasing (n : Nat) (g : Gen) (clock : List timeval) (ids : List Nat)
    (g2 : Gen) (rest2 : List timeval) (hinit : g.g_inited ≠ 0)
    (hidx : 0 ≤ g.g_ctx.index ∧ g.g_ctx.index ≤ 63)
    (hmono : NonDecreasing clock) (hrange : InRange clock)
    (h : next_ids n g clock = some (ids, g2, rest2)) :
    List.Pairwise (fun a b => a < b) ids := by
  cases n with
  | zero =>
    simp only [next_ids, Option.some.injEq, Prod.mk.injEq] at h
    rw [← h.1]
    exact List.Pairwise.nil
  | succ n =>
    obtain ⟨id, g1, rest, ids1, h1, h2, hids⟩ := next_ids_succ_some n g clock ids g2 rest2 h
    obtain ⟨hs1, hid⟩ := next_id_first g clock id g1 rest hinit hidx hmono hrange h1
    obtain ⟨hpw, hall⟩ := next_ids_settled n g1 rest ids1 g2 rest2 hs1 h2
    rw [hids]
    refine List.pairwise_cons.mpr ⟨?_, hpw⟩
    intro b hb
    have := hall b hb
    omega

/-- Every id of a run of an initialised generator is a packed value carrying the
worker id of the starting state; the run keeps the flag and the worker id. -/
theorem next_ids_form :
    ∀ (n : Nat) (g : Gen) (clock : List timeval) (ids : List Nat) (g2 : Gen)
      (rest2 : List timeval), g.g_inited ≠ 0 → next_ids n g clock = some (ids, g2, rest2) →
      (g2.g_inited = g.g_inited ∧ g2.g_ctx.work_id = g.g_ctx.work_id) ∧
        ∀ id ∈ ids, ∃ c : ctx_t, id = nextid c ∧ c.work_id = g.g_ctx.work_id := by
  intro n
  induction n with
  | zero =>
    intro g clock ids g2 rest2 _ h
    simp only [next_ids, Option.some.injEq, Prod.mk.injEq] at h
    rw [← h.1, ← h.2.1]
    exact ⟨⟨rfl, rfl⟩, by simp⟩
  | succ n ih =>
    intro g clock ids g2 rest2 hinit h
    obtain ⟨id, g1, rest, ids1, h1, h2, hids⟩ := next_ids_succ_some n g clock ids g2 rest2 h
    obtain ⟨hadv, hid, hflag⟩ := next_id_some g clock hinit id g1 rest h1
    have hw := advance_work_id g.g_ctx clock g1.g_ctx rest hadv
    obtain ⟨⟨hf2, hw2⟩, hall⟩ := ih g1 rest ids1 g2 rest2 (by rw [hflag]; exact hinit) h2
    refine ⟨⟨by rw [hf2, hflag], by rw [hw2, hw]⟩, ?_⟩
    intro b hb
    rw [hids] at hb
    rcases List.mem_cons.mp hb with hb | hb
    · exact ⟨g1.g_ctx, by rw [hb, hid], hw⟩
    · obtain ⟨c, hc, hcw⟩ := hall b hb
      exact ⟨c, hc, by rw [hcw, hw]⟩

/-- In every reachable state `index` is within `0..63`. -/
theorem reachable_index (g : Gen) (h : Reachable g) :
    0 ≤ g.g_ctx.index ∧ g.g_ctx.index ≤ 63 := by
  induction h with
  | initial => decide
  | init g w _ ih =>
    unfold Snowflake.init
    by_cases hi : g.g_inited ≠ 0
    · rw [if_pos hi]; exact ih
    · rw [if_neg hi]; simp
  | next_id g clock id g1 rest _ hstep ih =>
    by_cases hi : g.g_inited = 0
    · unfold Snowflake.next_id at hstep
      rw [if_pos hi] at hstep
      simp only [Option.some.injEq, Prod.mk.injEq] at hstep
      rw [← hstep.2.1]; exact ih
    · obtain ⟨hadv, _, _⟩ := next_id_some g clock hi id g1 rest hstep
      obtain ⟨tv, tl, _, h1 | h1 | h1⟩ := advance_spec g.g_ctx clock g1.g_ctx rest hadv
      · rw [h1.2.2.1]; simp only; omega
      · obtain ⟨_, _, _, _, _, hc1⟩ := wait_next_msec_spec g.g_ctx tl g1.g_ctx rest h1.2.2
        rw [hc1]; simp
      · rw [h1.2.1]; simp

/-! ## The claims -/

/-- C1. For an initialised generator the id that `next_id` returns is
`((T mod 2^40) << 24) | ((W mod 2^8) << 16) | ((S mod 2^6) << 10)`, where `T`, `W`, `S`
are `last_timestamp`, `work_id` and `index` after the step; so bits 24..63 of the id
are `T mod 2^40`, bits 16..23 are `W mod 2^8` and bits 10..15 are `S mod 2^6`. The call
does return an id when the clock has a first reading `tv` and that reading differs
from `last_timestamp`, or `index < 63`, or a later reading is after `last_timestamp`. -/
theorem next_id_layout (g : Gen) (clock : List timeval) (hinit : g.g_inited ≠ 0) :
    (∀ (id : Nat) (g1 : Gen) (rest : List timeval), next_id g clock = some (id, g1, rest) →
      id = ((((g1.g_ctx.last_timestamp % 2 ^ 40).toNat <<< 24) |||
              ((g1.g_ctx.work_id % 2 ^ 8).toNat <<< 16)) |||
              ((g1.g_ctx.index % 2 ^ 6).toNat <<< 10)) ∧
      ts_field id = (g1.g_ctx.last_timestamp % 2 ^ 40).toNat ∧
      worker_field id = (g1.g_ctx.work_id % 2 ^ 8).toNat ∧
      seq_field id = (g1.g_ctx.index % 2 ^ 6).toNat) ∧
    (∀ (tv : timeval) (tl : List timeval), clock = tv :: tl →
      (get_timestamp tv ≠ g.g_ctx.last_timestamp ∨ g.g_ctx.index < 63 ∨
        ∃ x ∈ tl, g.g_ctx.last_timestamp < get_timestamp x) →
      ∃ (id : Nat) (g1 : Gen) (rest : List timeval), next_id g clock = some (id, g1, rest)) := by
  constructor
  · intro id g1 rest h
    obtain ⟨_, hid, _⟩ := next_id_some g clock hinit id g1 rest h
    have hb : (g1.g_ctx.work_id % 2 ^ 8).toNat < 2 ^ 8 := by omega
    have hc : (g1.g_ctx.index % 2 ^ 6).toNat < 2 ^ 6 := by omega
    refine ⟨?_, ?_, ?_, ?_⟩
    · rw [or_shift_eq_add _ _ _ hb hc, hid, nextid_eq]
    · rw [hid, ts_field_nextid]
    · rw [hid, worker_field_nextid]
    · rw [hid, seq_field_nextid]
  · intro tv tl hcl hcond
    have hsome := (next_id_isSome g tv tl hinit).mpr hcond
    rw [← hcl] at hsome
    obtain ⟨⟨id, g1, rest⟩, hp⟩ := Option.isSome_iff_exists.mp hsome
    exact ⟨id, g1, rest, hp⟩

/-- C1 at the triple of the specification: with `last_timestamp = 1000`, `work_id = 5`
and `index` going from 2 to 3 the id is `(1000 << 24) | (5 << 16) | (3 << 10)`,
which is 16777546752. -/
theorem next_id_layout_witness :
    next_id ⟨1, ⟨1000, 5, 2⟩⟩ [at_ms 1000] = some (16777546752, ⟨1, ⟨1000, 5, 3⟩⟩, []) ∧
    (16777546752 = (((1000 <<< 24) ||| (5 <<< 16)) ||| (3 <<< 10)) ∧
      ts_field 16777546752 = 1000 ∧ worker_field 16777546752 = 5 ∧
      seq_field 16777546752 = 3) :=
  ⟨by decide,
   (next_id_layout ⟨1, ⟨1000, 5, 2⟩⟩ [at_ms 1000] (by decide)).1 16777546752
     ⟨1, ⟨1000, 5, 3⟩⟩ [] (by decide)⟩

/-- C2. For an initialised generator, whatever integers `last_timestamp`, `work_id`
and `index` hold, the id that `next_id` returns has its ten lowest bits zero. -/
theorem next_id_low_bits_zero (g : Gen) (clock : List timeval) (id : Nat) (g1 : Gen)
    (rest : List timeval) (hinit : g.g_inited ≠ 0)
    (h : next_id g clock = some (id, g1, rest)) :
    id % 1024 = 0 ∧ id &&& 0x3ff = 0 := by
  obtain ⟨_, hid, _⟩ := next_id_some g clock hinit id g1 rest h
  have hmod : id % 1024 = 0 := by rw [hid]; exact nextid_mod_1024 _
  refine ⟨hmod, ?_⟩
  have h10 := Nat.and_pow_two_sub_one_eq_mod id 10
  have e : (2 : Nat) ^ 10 - 1 = 0x3ff := by decide
  rw [e] at h10
  rw [h10]
  exact hmod

/-- C2 on a state whose fields are all negative or out of range. -/
theorem next_id_low_bits_zero_witness :
    (1 : Int) ≠ 0 ∧
    next_id ⟨1, ⟨-7, -1, 100⟩⟩ [at_ms (-9)] =
      some (18446744073575268352, ⟨1, ⟨-9, -1, 0⟩⟩, []) ∧
    (18446744073575268352 % 1024 = 0 ∧ 18446744073575268352 &&& 0x3ff = 0) :=
  ⟨by decide, by decide,
   next_id_low_bits_zero ⟨1, ⟨-7, -1, 100⟩⟩ [at_ms (-9)] 18446744073575268352
     ⟨1, ⟨-9, -1, 0⟩⟩ [] (by decide) (by decide)⟩

/-- C3. Uniqueness. On a reachable, initialised generator, when the clock readings never
go backward and all epoch-relative timestamps lie in `[0, 2^40)`, the ids returned by any
number of successive `next_id` calls are pairwise distinct. -/
theorem next_ids_nodup (n : Nat) (g : Gen) (clock : List timeval) (ids : List Nat)
    (g2 : Gen) (rest2 : List timeval) (hreach : Reachable g) (hinit : g.g_inited ≠ 0)
    (hmono : NonDecreasing clock) (hrange : InRange clock)
    (h : next_ids n g clock = some (ids, g2, rest2)) :
    ids.Nodup := by
  have hpw := next_ids_increasing n g clock ids g2 rest2 hinit (reachable_index g hreach)
    hmono hrange h
  exact hpw.imp (fun hab => Nat.ne_of_lt hab)

/-- C3 on six calls after `init(5)` with readings 7, 7, 7, 9, 9, 12. -/
theorem next_ids_nodup_witness :
    next_ids 6 (init Gen.initial 5).2 [at_ms 7, at_ms 7, at_ms 7, at_ms 9, at_ms 9, at_ms 12] =
      some ([117768192, 117769216, 117770240, 151322624, 151323648, 201654272],
        ⟨1, ⟨12, 5, 0⟩⟩, []) ∧
    [117768192, 117769216, 117770240, 151322624, 151323648, 201654272].Nodup :=
  ⟨by decide,
   next_ids_nodup 6 (init Gen.initial 5).2
     [at_ms 7, at_ms 7, at_ms 7, at_ms 9, at_ms 9, at_ms 12]
     [117768192, 117769216, 117770240, 151322624, 151323648, 201654272] ⟨1, ⟨12, 5, 0⟩⟩ []
     (Reachable.init _ _ Reachable.initial) (by decide) (by decide) (by decide) (by decide)⟩

/-- C4 as stated fails without any backward reading: the timestamp field holds only
the low 40 bits of `last_timestamp`. After `init(5)`, the readings `2^40 - 1` and then
`2^40` give a first id with timestamp field `2^40 - 1` and a second id with timestamp
field 0. -/
theorem timestamp_field_wraps :
    NonDecreasing [at_ms (2 ^ 40 - 1), at_ms (2 ^ 40)] ∧
    next_ids 2 (init Gen.initial 5).2 [at_ms (2 ^ 40 - 1), at_ms (2 ^ 40)] =
      some ([18446744073693102080, 327680], ⟨1, ⟨2 ^ 40, 5, 0⟩⟩, []) ∧
    ts_field 18446744073693102080 = 2 ^ 40 - 1 ∧ ts_field 327680 = 0 ∧
    ¬ (ts_field 18446744073693102080 ≤ ts_field 327680) := by
  decide

/-- C4, amended. On a reachable, initialised generator, when the clock readings never go
backward and all epoch-relative timestamps lie in `[0, 2^40)`: for any two ids `a` then
`b` returned in that call order, the timestamp field of `b` is at least that of `a`, and
if the two timestamp fields are equal the sequence field of `b` is greater than that of
`a`. -/
theorem next_ids_fields_monotone (n : Nat) (g : Gen) (clock : List timeval) (ids : List Nat)
    (g2 : Gen) (rest2 : List timeval) (hreach : Reachable g) (hinit : g.g_inited ≠ 0)
    (hmono : NonDecreasing clock) (hrange : InRange clock)
    (h : next_ids n g clock = some (ids, g2, rest2)) :
    ∀ (i j a b : Nat), i < j → ids[i]? = some a → ids[j]? = some b →
      ts_field a ≤ ts_field b ∧ (ts_field a = ts_field b → seq_field a < seq_field b) := by
  have hpw := next_ids_increasing n g clock ids g2 rest2 hinit (reachable_index g hreach)
    hmono hrange h
  obtain ⟨_, hform⟩ := next_ids_form n g clock ids g2 rest2 hinit h
  intro i j a b hij hi hj
  obtain ⟨hi1, hi2⟩ := List.getElem?_eq_some_iff.mp hi
  obtain ⟨hj1, hj2⟩ := List.getElem?_eq_some_iff.mp hj
  have hlt : a < b := by
    rw [← hi2, ← hj2]
    exact List.pairwise_iff_getElem.mp hpw i j hi1 hj1 hij
  obtain ⟨ca, hca, hwa⟩ := hform a (List.getElem?_mem hi)
  obtain ⟨cb, hcb, hwb⟩ := hform b (List.getElem?_mem hj)
  rw [hca, hcb, nextid_eq, nextid_eq, hwa, hwb] at hlt
  rw [hca, hcb, ts_field_nextid, ts_field_nextid, seq_field_nextid, seq_field_nextid]
  have hb : (g.g_ctx.work_id % 2 ^ 8).toNat < 2 ^ 8 := by omega
  have hsa : (ca.index % 2 ^ 6).toNat < 2 ^ 6 := by omega
  have hsb : (cb.index % 2 ^ 6).toNat < 2 ^ 6 := by omega
  constructor
  · omega
  · intro heq
    rw [heq] at hlt
    omega

/-- C4, amended, on six calls after `init(5)` with readings 7, 7, 7, 9, 9, 12: the
second and third ids share timestamp field 7 and have sequence fields 1 and 2. -/
theorem next_ids_fields_monotone_witness :
    ts_field 117769216 ≤ ts_field 117770240 ∧
      (ts_field 117769216 = ts_field 117770240 → seq_field 117769216 < seq_field 117770240) :=
  next_ids_fields_monotone 6 (init Gen.initial 5).2
    [at_ms 7, at_ms 7, at_ms 7, at_ms 9, at_ms 9, at_ms 12]
    [117768192, 117769216, 117770240, 151322624, 151323648, 201654272] ⟨1, ⟨12, 5, 0⟩⟩ []
    (Reachable.init _ _ Reachable.initial) (by decide) (by decide) (by decide) (by decide)
    1 2 117769216 117770240 (by decide) (by decide) (by decide)

/-- C5: what the code does when the clock reads less than `last_timestamp`. After
`init(5)` and four calls at reading 1000 the state is `last_timestamp = 1000`,
`index = 3`; a fifth call at reading 999 takes the `else` branch of `next_id`, which
stores 999 in `last_timestamp` and resets `index` to 0. With readings 5, 4, 5 the
first and third ids are equal. -/
theorem next_id_backward_reading :
    next_ids 4 (init Gen.initial 5).2 [at_ms 1000, at_ms 1000, at_ms 1000, at_ms 1000] =
      some ([16777543680, 16777544704, 16777545728, 16777546752], ⟨1, ⟨1000, 5, 3⟩⟩, []) ∧
    next_id ⟨1, ⟨1000, 5, 3⟩⟩ [at_ms 999] = some (16760766464, ⟨1, ⟨999, 5, 0⟩⟩, []) ∧
    next_ids 3 (init Gen.initial 5).2 [at_ms 5, at_ms 4, at_ms 5] =
      some ([84213760, 67436544, 84213760], ⟨1, ⟨5, 5, 0⟩⟩, []) := by
  decide

/-- C6. While the flag is 0, `next_id` returns the all-bits-set value `2^64 - 1`
(handed to Lua as -1), reads no clock reading and leaves the globals as they were.
While the flag is not 0 the outcome is never that of the early return: the returned
value is not `2^64 - 1` and at least one clock reading has been used. -/
theorem next_id_uninitialized (g : Gen) (clock : List timeval) :
    (g.g_inited = 0 →
      next_id g clock = some (2 ^ 64 - 1, g, clock) ∧ lnextid g clock = some (-1, g, clock)) ∧
    (g.g_inited ≠ 0 →
      next_id g clock ≠ some (2 ^ 64 - 1, g, clock) ∧
      ∀ (id : Nat) (g1 : Gen) (rest : List timeval), next_id g clock = some (id, g1, rest) →
        id ≠ 2 ^ 64 - 1 ∧ rest.length < clock.length) := by
  constructor
  · intro h0
    have h1 : next_id g clock = some (2 ^ 64 - 1, g, clock) := by
      unfold next_id
      rw [if_pos h0]
      rfl
    refine ⟨h1, ?_⟩
    unfold lnextid
    rw [h1]
    rfl
  · intro hinit
    have key : ∀ (id : Nat) (g1 : Gen) (rest : List timeval),
        next_id g clock = some (id, g1, rest) → id ≠ 2 ^ 64 - 1 ∧ rest.length < clock.length := by
      intro id g1 rest h
      obtain ⟨hadv, hid, _⟩ := next_id_some g clock hinit id g1 rest h
      constructor
      · have := nextid_mod_1024 g1.g_ctx
        rw [← hid] at this
        omega
      · obtain ⟨used, hne, hcl⟩ := advance_suffix g.g_ctx clock g1.g_ctx rest hadv
        have hpos : 0 < used.length := List.length_pos.mpr hne
        rw [hcl, List.length_append]
        omega
    refine ⟨?_, key⟩
    intro h
    exact (key _ _ _ h).1 rfl

/-- C6 before `init` (the C initial state) and after `init(5)`. -/
theorem next_id_uninitialized_witness :
    (next_id Gen.initial [at_ms 5] = some (2 ^ 64 - 1, Gen.initial, [at_ms 5]) ∧
      lnextid Gen.initial [at_ms 5] = some (-1, Gen.initial, [at_ms 5])) ∧
    (next_id (init Gen.initial 5).2 [at_ms 5] ≠
        some (2 ^ 64 - 1, (init Gen.initial 5).2, [at_ms 5]) ∧
      ∀ (id : Nat) (g1 : Gen) (rest : List timeval),
        next_id (init Gen.initial 5).2 [at_ms 5] = some (id, g1, rest) →
        id ≠ 2 ^ 64 - 1 ∧ rest.length < [at_ms 5].length) :=
  ⟨(next_id_uninitialized Gen.initial [at_ms 5]).1 (by decide),
   (next_id_uninitialized (init Gen.initial 5).2 [at_ms 5]).2 (by decide)⟩

/-- C7. The id that an initialised `next_id` returns is never the all-bits-set value:
it differs from `2^64 - 1`, the integer handed to Lua differs from -1, and it differs
from whatever an uninitialised call returns. -/
theorem next_id_ne_sentinel (g : Gen) (clock : List timeval) (id : Nat) (g1 : Gen)
    (rest : List timeval) (hinit : g.g_inited ≠ 0)
    (h : next_id g clock = some (id, g1, rest)) :
    id ≠ UINT64_MAX ∧ to_int64 id ≠ -1 ∧
      ∀ (u : Gen) (uclock : List timeval) (sid : Nat) (u1 : Gen) (urest : List timeval),
        u.g_inited = 0 → next_id u uclock = some (sid, u1, urest) → id ≠ sid := by
  obtain ⟨_, hid, _⟩ := next_id_some g clock hinit id g1 rest h
  have hmod := nextid_mod_1024 g1.g_ctx
  have hlt := nextid_lt g1.g_ctx
  rw [← hid] at hmod hlt
  have hmax : UINT64_MAX = 2 ^ 64 - 1 := rfl
  have hne : id ≠ UINT64_MAX := by
    rw [hmax]
    omega
  refine ⟨hne, ?_, ?_⟩
  · unfold to_int64
    split <;> omega
  · intro u uclock sid u1 urest hu hs
    unfold next_id at hs
    rw [if_pos hu] at hs
    simp only [Option.some.injEq, Prod.mk.injEq] at hs
    rw [← hs.1]
    exact hne

/-- C7 on the first id after `init(5)` at reading 7. -/
theorem next_id_ne_sentinel_witness :
    next_id (init Gen.initial 5).2 [at_ms 7] = some (117768192, ⟨1, ⟨7, 5, 0⟩⟩, []) ∧
    (117768192 ≠ UINT64_MAX ∧ to_int64 117768192 ≠ -1 ∧
      ∀ (u : Gen) (uclock : List timeval) (sid : Nat) (u1 : Gen) (urest : List timeval),
        u.g_inited = 0 → next_id u uclock = some (sid, u1, urest) → 117768192 ≠ sid) :=
  ⟨by decide,
   next_id_ne_sentinel (init Gen.initial 5).2 [at_ms 7] 117768192 ⟨1, ⟨7, 5, 0⟩⟩ []
     (by decide) (by decide)⟩

/-- What `init` does to an uninitialised generator. -/
theorem init_uninit (g : Gen) (w : Int) (h0 : g.g_inited = 0) :
    init g w = (0, ⟨1, ⟨g.g_ctx.last_timestamp, (bits 16 w : Int), 0⟩⟩) := by
  unfold init
  rw [if_neg (by simpa using h0)]

/-- What `init` does to an initialised generator. -/
theorem init_inited (g : Gen) (w : Int) (h1 : g.g_inited ≠ 0) : init g w = (0, g) := by
  unfold init
  rw [if_pos h1]

/-- After `init` the flag is set. -/
theorem init_flag (g : Gen) (w : Int) : (init g w).2.g_inited ≠ 0 := by
  by_cases h0 : g.g_inited = 0
  · rw [init_uninit g w h0]; exact one_ne_zero
  · rw [init_inited g w h0]; exact h0

/-- C8. Idempotent initialisation. On an initialised generator a further `init(w2)`
returns 0 and leaves the globals as they were; `init(w1); init(w2)` is `init(w1)` as a
state transformer; and every id produced after `init(w1); init(w2)` on a fresh generator
carries `w1` (its low 8 bits, which is `w1` itself for `0 ≤ w1 ≤ 255`) in the worker id
field. -/
theorem init_idempotent (g : Gen) (w1 w2 : Int) :
    (g.g_inited ≠ 0 → init g w2 = (0, g)) ∧
    init (init g w1).2 w2 = (0, (init g w1).2) ∧
    (g.g_inited = 0 →
      ∀ (n : Nat) (clock : List timeval) (ids : List Nat) (g2 : Gen) (rest2 : List timeval),
        next_ids n (init (init g w1).2 w2).2 clock = some (ids, g2, rest2) →
        ∀ id ∈ ids, worker_field id = (w1 % 2 ^ 8).toNat ∧
          (0 ≤ w1 → w1 ≤ 255 → (worker_field id : Int) = w1)) := by
  have hsecond : init (init g w1).2 w2 = (0, (init g w1).2) :=
    init_inited (init g w1).2 w2 (init_flag g w1)
  refine ⟨init_inited g w2, hsecond, ?_⟩
  intro h0 n clock ids g2 rest2 hrun id hid
  rw [hsecond] at hrun
  obtain ⟨_, hform⟩ := next_ids_form n (init g w1).2 clock ids g2 rest2 (init_flag g w1) hrun
  obtain ⟨c, hc, hw⟩ := hform id hid
  rw [init_uninit g w1 h0] at hw
  simp only [bits] at hw
  rw [hc, worker_field_nextid, hw]
  constructor
  · omega
  · intro h1 h2
    omega

/-- C8 on the C initial state with `init(5); init(9)` and then three ids. -/
theorem init_idempotent_witness :
    init (init Gen.initial 5).2 9 = (0, (init Gen.initial 5).2) ∧
    next_ids 3 (init (init Gen.initial 5).2 9).2 [at_ms 7, at_ms 7, at_ms 9] =
      some ([117768192, 117769216, 151322624], ⟨1, ⟨9, 5, 0⟩⟩, []) ∧
    (worker_field 117769216 = ((5 : Int) % 2 ^ 8).toNat ∧
      ((0 : Int) ≤ 5 → (5 : Int) ≤ 255 → (worker_field 117769216 : Int) = 5)) :=
  ⟨(init_idempotent Gen.initial 5 9).2.1, by decide,
   (init_idempotent Gen.initial 5 9).2.2 (by decide) 3 [at_ms 7, at_ms 7, at_ms 9]
     [117768192, 117769216, 151322624] ⟨1, ⟨9, 5, 0⟩⟩ [] (by decide) 117769216 (by decide)⟩

/-- C9. Worker id validation in `linit`. The call raises an error exactly when an
argument is supplied and lies outside `[0, 255]`, and then the globals are unchanged.
Otherwise it pushes `true`; an uninitialised generator becomes initialised with
`work_id` equal to the argument (0 when omitted) and `index = 0`, an initialised one is
left as it was. -/
theorem linit_spec (g : Gen) (args : List Int) :
    ((∃ msg, (linit g args).1 = Except.error msg) ↔
      ∃ id tl, args = id :: tl ∧ (id < 0 ∨ 255 < id)) ∧
    ((∃ id tl, args = id :: tl ∧ (id < 0 ∨ 255 < id)) → (linit g args).2 = g) ∧
    (¬ (∃ id tl, args = id :: tl ∧ (id < 0 ∨ 255 < id)) →
      (linit g args).1 = Except.ok true ∧
      (g.g_inited = 0 → (linit g args).2 =
        ⟨1, ⟨g.g_ctx.last_timestamp, args.headD 0, 0⟩⟩) ∧
      (g.g_inited ≠ 0 → (linit g args).2 = g)) := by
  have h255 : ((MAX_WORKID_VAL : Nat) : Int) = 255 := by decide
  have hok : ∀ w : Int, 0 ≤ w → w ≤ 255 →
      (match (Except.ok (wrap16 w) : Except String Int) with
        | Except.error msg => ((Except.error msg : Except String Bool), g)
        | Except.ok work_id =>
          if (init g work_id).1 ≠ 0 then
            (Except.error ("Init instance error, not enough memory."), (init g work_id).2)
          else (Except.ok true, (init g work_id).2)) =
      (Except.ok true, if g.g_inited = 0 then
        ⟨1, ⟨g.g_ctx.last_timestamp, w, 0⟩⟩ else g) := by
    intro w hw0 hw1
    have hwrap : wrap16 w = w := by unfold wrap16; omega
    have hbits : ((bits 16 w : Nat) : Int) = w := by unfold bits; omega
    simp only [hwrap]
    by_cases h0 : g.g_inited = 0
    · rw [init_uninit g w h0, if_pos h0, hbits]
      simp
    · rw [init_inited g w h0, if_neg h0]
      simp
  cases args with
  | nil =>
    have hl : linit g [] = (Except.ok true, if g.g_inited = 0 then
        ⟨1, ⟨g.g_ctx.last_timestamp, 0, 0⟩⟩ else g) := by
      have := hok 0 (by omega) (by omega)
      have hw0 : wrap16 0 = 0 := by decide
      rw [hw0] at this
      simpa [linit] using this
    rw [hl]
    refine ⟨⟨fun ⟨msg, h⟩ => by simp at h, fun ⟨id, tl, h, _⟩ => by simp at h⟩,
      fun ⟨id, tl, h, _⟩ => by simp at h, fun _ => ⟨rfl, ?_, ?_⟩⟩
    · intro h0; simp [h0]
    · intro h0; simp [h0]
  | cons id tl =>
    by_cases hbad : id < 0 ∨ id > (MAX_WORKID_VAL : Int)
    · have hl : linit g (id :: tl) = (Except.error ("Work id is in range of 0 - 1023."), g) := by
        simp only [linit]
        rw [if_pos hbad]
      rw [hl]
      have hex : ∃ id1 tl1, id :: tl = id1 :: tl1 ∧ (id1 < 0 ∨ 255 < id1) :=
        ⟨id, tl, rfl, by omega⟩
      exact ⟨⟨fun _ => hex, fun _ => ⟨_, rfl⟩⟩, fun _ => rfl, fun hn => absurd hex hn⟩
    · have hl : linit g (id :: tl) = (Except.ok true, if g.g_inited = 0 then
          ⟨1, ⟨g.g_ctx.last_timestamp, id, 0⟩⟩ else g) := by
        have := hok id (by omega) (by omega)
        simp only [linit]
        rw [if_neg hbad]
        exact this
      rw [hl]
      have hnex : ¬ ∃ id1 tl1, id :: tl = id1 :: tl1 ∧ (id1 < 0 ∨ 255 < id1) := by
        rintro ⟨id1, tl1, he, hr⟩
        simp only [List.cons.injEq] at he
        omega
      refine ⟨⟨fun ⟨msg, h⟩ => by simp at h, fun h => absurd h hnex⟩,
        fun h => absurd h hnex, fun _ => ⟨rfl, ?_, ?_⟩⟩
      · intro h0; simp [h0]
      · intro h0; simp [h0]

/-- C9 on the C initial state: `init(256)` raises and changes nothing, `init(7)` and
`init()` push `true` and initialise with worker id 7 and 0. -/
theorem linit_spec_witness :
    linit Gen.initial [256] = (Except.error ("Work id is in range of 0 - 1023."), Gen.initial) ∧
    (linit Gen.initial [256]).2 = Gen.initial ∧
    ((linit Gen.initial [7]).1 = Except.ok true ∧
      ((0 : Int) = 0 → (linit Gen.initial [7]).2 = ⟨1, ⟨0, 7, 0⟩⟩) ∧
      ((0 : Int) ≠ 0 → (linit Gen.initial [7]).2 = Gen.initial)) ∧
    linit Gen.initial [] = (Except.ok true, ⟨1, ⟨0, 0, 0⟩⟩) :=
  ⟨rfl,
   (linit_spec Gen.initial [256]).2.1 ⟨256, [], rfl, by decide⟩,
   (linit_spec Gen.initial [7]).2.2
     (by rintro ⟨id, tl, he, hr⟩; simp only [List.cons.injEq] at he; omega),
   rfl⟩

/-- C10 as stated fails: at 2016-01-01T00:00:00Z, which is 16801 days after the Unix
epoch, `get_timestamp` returns 28800000 (eight hours in milliseconds), not 0. -/
theorem get_timestamp_at_2016_utc :
    get_timestamp ⟨16801 * 86400, 0⟩ = 28800000 ∧
    get_timestamp ⟨16801 * 86400, 0⟩ ≠ (16801 * 86400 : Int) * 1000 + 0 / 1000 - 16801 * 86400000 ∧
    get_timestamp ⟨16801 * 86400, 0⟩ ≠ 0 := by
  decide

/-- C10, amended. For every reading with `0 ≤ tv_usec < 10^6` (and `tv_sec` within
`±2^53`, where the 64-bit arithmetic does not overflow) `get_timestamp` returns the
number of whole milliseconds elapsed since 2015-12-31T16:00:00Z, the instant eight hours
before 2016-01-01T00:00:00Z (midnight of 2016-01-01 at UTC+8):
`tv_sec * 1000 + tv_usec / 1000 - 1451577600000`, where
`1451577600000 = 16801 * 86400000 - 8 * 3600000`. It returns 0 exactly within the first
millisecond from that instant. -/
theorem get_timestamp_epoch (tv : timeval)
    (husec : 0 ≤ tv.tv_usec ∧ tv.tv_usec < 10 ^ 6)
    (hsec : -(2 ^ 53) ≤ tv.tv_sec ∧ tv.tv_sec ≤ 2 ^ 53) :
    get_timestamp tv = tv.tv_sec * 1000 + tv.tv_usec / 1000 - 1451577600000 ∧
    get_timestamp tv =
      (tv.tv_sec * 10 ^ 6 + tv.tv_usec) / 1000 - (16801 * 86400000 - 8 * 3600000) ∧
    (get_timestamp tv = 0 ↔ tv.tv_sec = 16801 * 86400 - 8 * 3600 ∧ tv.tv_usec < 1000) := by
  have hdiv : Int.tdiv tv.tv_usec 1000 = tv.tv_usec / 1000 :=
    Int.tdiv_eq_ediv husec.1 (by decide)
  have h1 : get_timestamp tv = tv.tv_sec * 1000 + tv.tv_usec / 1000 - 1451577600000 := by
    unfold get_timestamp wrap64 NEW_START_TIME_MS_VAL
    rw [hdiv]
    omega
  refine ⟨h1, ?_, ?_⟩
  · rw [h1]; omega
  · rw [h1]; omega

/-- C10, amended, at 2015-12-31T16:00:00Z and at 2016-01-01T00:00:00.999999Z. -/
theorem get_timestamp_epoch_witness :
    get_timestamp ⟨1451577600, 0⟩ = 0 ∧
    (get_timestamp ⟨16801 * 86400, 999999⟩ =
        (16801 * 86400 : Int) * 1000 + 999999 / 1000 - 1451577600000 ∧
      get_timestamp ⟨16801 * 86400, 999999⟩ =
        ((16801 * 86400 : Int) * 10 ^ 6 + 999999) / 1000 - (16801 * 86400000 - 8 * 3600000) ∧
      (get_timestamp ⟨16801 * 86400, 999999⟩ = 0 ↔
        (16801 * 86400 : Int) = 16801 * 86400 - 8 * 3600 ∧ (999999 : Int) < 1000)) :=
  ⟨by decide,
   get_timestamp_epoch ⟨16801 * 86400, 999999⟩ (by decide) (by decide)⟩

/-! ## Runs that keep `last_timestamp` -/

theorem next_trace_succ_some (n : Nat) (g : Gen) (clock : List timeval)
    (tr : List (Nat × Gen)) (rest2 : List timeval)
    (h : next_trace (n + 1) g clock = some (tr, rest2)) :
    ∃ id g1 rest tr1, next_id g clock = some (id, g1, rest) ∧
      next_trace n g1 rest = some (tr1, rest2) ∧ tr = (id, g1) :: tr1 := by
  simp only [next_trace] at h
  cases h1 : next_id g clock with
  | none => rw [h1] at h; simp at h
  | some p =>
    obtain ⟨id, g1, rest⟩ := p
    rw [h1] at h
    simp only at h
    cases h2 : next_trace n g1 rest with
    | none => rw [h2] at h; simp at h
    | some q =>
      obtain ⟨tr1, rest3⟩ := q
      rw [h2] at h
      simp only [Option.some.injEq, Prod.mk.injEq] at h
      obtain ⟨e1, e2⟩ := h
      subst e1 e2
      exact ⟨id, g1, rest, tr1, rfl, h2, rfl⟩

/-- A call of an initialised generator that leaves `last_timestamp` as it was took the
increment branch. -/
theorem next_id_unchanged (g : Gen) (clock : List timeval) (id : Nat) (g1 : Gen)
    (rest : List timeval) (hinit : g.g_inited ≠ 0) (h : next_id g clock = some (id, g1, rest))
    (hsame : g1.g_ctx.last_timestamp = g.g_ctx.last_timestamp) :
    g1.g_ctx.index = g.g_ctx.index + 1 ∧ g.g_ctx.index < 63 ∧ id = nextid g1.g_ctx ∧
      g1.g_inited ≠ 0 := by
  obtain ⟨hadv, hid, hflag⟩ := next_id_some g clock hinit id g1 rest h
  have hf : g1.g_inited ≠ 0 := by rw [hflag]; exact hinit
  obtain ⟨tv, tl, _, h1 | h1 | h1⟩ := advance_spec g.g_ctx clock g1.g_ctx rest hadv
  · obtain ⟨_, hlt, hc1, _⟩ := h1
    refine ⟨?_, hlt, hid, hf⟩
    rw [hc1]
  · obtain ⟨_, _, _, _, hlt2, hc1⟩ := wait_next_msec_spec g.g_ctx tl g1.g_ctx rest h1.2.2
    rw [hc1] at hsame
    simp only at hsame
    omega
  · obtain ⟨hne, hc1, _⟩ := h1
    rw [hc1] at hsame
    exact absurd hsame hne

/-- Along a run in which every call leaves `last_timestamp` as it was at the start,
`index` goes up by one per call: the `i`-th id carries sequence `index + 1 + i`, and the
run cannot be longer than `63 - index`. -/
theorem next_trace_unchanged :
    ∀ (n : Nat) (g : Gen) (clock : List timeval) (tr : List (Nat × Gen)) (rest : List timeval),
      g.g_inited ≠ 0 → (0 ≤ g.g_ctx.index ∧ g.g_ctx.index ≤ 63) →
      next_trace n g clock = some (tr, rest) →
      (∀ p ∈ tr, p.2.g_ctx.last_timestamp = g.g_ctx.last_timestamp) →
      (tr.length : Int) + g.g_ctx.index ≤ 63 ∧
        ∀ (i : Nat) (p : Nat × Gen), tr[i]? = some p →
          (seq_field p.1 : Int) = g.g_ctx.index + 1 + i := by
  intro n
  induction n with
  | zero =>
    intro g clock tr rest _ hidx h _
    simp only [next_trace, Option.some.injEq, Prod.mk.injEq] at h
    rw [← h.1]
    refine ⟨by simp only [List.length_nil]; omega, ?_⟩
    intro i p hp
    simp at hp
  | succ n ih =>
    intro g clock tr rest hinit hidx h hsame
    obtain ⟨id, g1, rest1, tr1, h1, h2, htr⟩ := next_trace_succ_some n g clock tr rest h
    rw [htr] at hsame
    have hs1 : g1.g_ctx.last_timestamp = g.g_ctx.last_timestamp :=
      hsame (id, g1) (List.mem_cons_self _ _)
    obtain ⟨hi1, hlt, hid, hf1⟩ := next_id_unchanged g clock id g1 rest1 hinit h1 hs1
    have hsame1 : ∀ p ∈ tr1, p.2.g_ctx.last_timestamp = g1.g_ctx.last_timestamp := by
      intro p hp
      rw [hs1]
      exact hsame p (List.mem_cons_of_mem _ hp)
    obtain ⟨hlen, hseq⟩ := ih g1 rest1 tr1 rest hf1 (by omega) h2 hsame1
    rw [htr]
    constructor
    · simp only [List.length_cons]
      push_cast
      omega
    · intro i p hp
      cases i with
      | zero =>
        simp only [List.getElem?_cons_zero, Option.some.injEq] at hp
        rw [← hp]
        simp only
        rw [hid, seq_field_nextid]
        push_cast
        omega
      | succ i =>
        simp only [List.getElem?_cons_succ] at hp
        have := hseq i p hp
        push_cast
        omega

/-- C14. Sequence bound. In every state reachable from the C initial globals by calls
of `init` and `next_id` under any clock, `0 ≤ index ≤ 63`. Along a run of consecutive
`next_id` calls of an initialised generator whose ids are all issued for one and the same
`last_timestamp`, the sequence field goes up by exactly 1 from each id to the next, and
the run has at most 64 ids. -/
theorem index_bound (g : Gen) (hreach : Reachable g) :
    (0 ≤ g.g_ctx.index ∧ g.g_ctx.index ≤ 63) ∧
    (g.g_inited ≠ 0 →
      ∀ (n : Nat) (clock : List timeval) (tr : List (Nat × Gen)) (rest : List timeval),
        next_trace n g clock = some (tr, rest) →
        (∀ p ∈ tr, ∀ q ∈ tr, p.2.g_ctx.last_timestamp = q.2.g_ctx.last_timestamp) →
        (∀ (i : Nat) (p q : Nat × Gen), tr[i]? = some p → tr[i + 1]? = some q →
          seq_field q.1 = seq_field p.1 + 1) ∧
        tr.length ≤ 64) := by
  refine ⟨reachable_index g hreach, ?_⟩
  intro hinit n clock tr rest h hsame
  cases n with
  | zero =>
    simp only [next_trace, Option.some.injEq, Prod.mk.injEq] at h
    rw [← h.1]
    refine ⟨?_, by simp⟩
    intro i p q hp
    simp at hp
  | succ n =>
    obtain ⟨id, g1, rest1, tr1, h1, h2, htr⟩ := next_trace_succ_some n g clock tr rest h
    obtain ⟨_, hid, hflag⟩ := next_id_some g clock hinit id g1 rest1 h1
    have hf1 : g1.g_inited ≠ 0 := by rw [hflag]; exact hinit
    have hidx1 := reachable_index g1 (Reachable.next_id g clock id g1 rest1 hreach h1)
    rw [htr] at hsame
    have hsame1 : ∀ p ∈ tr1, p.2.g_ctx.last_timestamp = g1.g_ctx.last_timestamp := by
      intro p hp
      exact hsame p (List.mem_cons_of_mem _ hp) (id, g1) (List.mem_cons_self _ _)
    obtain ⟨hlen, hseq⟩ := next_trace_unchanged n g1 rest1 tr1 rest hf1 hidx1 h2 hsame1
    rw [htr]
    constructor
    · intro i p q hp hq
      simp only [List.getElem?_cons_succ] at hq
      have hq1 := hseq i q hq
      cases i with
      | zero =>
        simp only [List.getElem?_cons_zero, Option.some.injEq] at hp
        rw [← hp]
        simp only
        rw [hid, seq_field_nextid]
        push_cast at hq1
        omega
      | succ i =>
        simp only [List.getElem?_cons_succ] at hp
        have hp1 := hseq i p hp
        push_cast at hq1
        omega
    · simp only [List.length_cons]
      omega

/-- C14 on three calls after `init(5)`, all at reading 7: sequence fields 0, 1, 2. -/
theorem index_bound_witness :
    next_trace 3 (init Gen.initial 5).2 [at_ms 7, at_ms 7, at_ms 7] =
      some ([(117768192, ⟨1, ⟨7, 5, 0⟩⟩), (117769216, ⟨1, ⟨7, 5, 1⟩⟩),
        (117770240, ⟨1, ⟨7, 5, 2⟩⟩)], []) ∧
    ((∀ (i : Nat) (p q : Nat × Gen),
        [((117768192 : Nat), (⟨1, ⟨7, 5, 0⟩⟩ : Gen)), (117769216, ⟨1, ⟨7, 5, 1⟩⟩),
          (117770240, ⟨1, ⟨7, 5, 2⟩⟩)][i]? = some p →
        [((117768192 : Nat), (⟨1, ⟨7, 5, 0⟩⟩ : Gen)), (117769216, ⟨1, ⟨7, 5, 1⟩⟩),
          (117770240, ⟨1, ⟨7, 5, 2⟩⟩)][i + 1]? = some q →
        seq_field q.1 = seq_field p.1 + 1) ∧
      [((117768192 : Nat), (⟨1, ⟨7, 5, 0⟩⟩ : Gen)), (117769216, ⟨1, ⟨7, 5, 1⟩⟩),
        (117770240, ⟨1, ⟨7, 5, 2⟩⟩)].length ≤ 64) :=
  ⟨by decide,
   (index_bound (init Gen.initial 5).2 (Reachable.init _ _ Reachable.initial)).2 (by decide) 3
     [at_ms 7, at_ms 7, at_ms 7]
     [(117768192, ⟨1, ⟨7, 5, 0⟩⟩), (117769216, ⟨1, ⟨7, 5, 1⟩⟩), (117770240, ⟨1, ⟨7, 5, 2⟩⟩)] []
     (by decide) (by decide)⟩

/-! ## The branches of one call -/

/-- The spin loop skips readings that are not after `last_timestamp`. -/
theorem wait_next_msec_skip (c : ctx_t) (pre more : List timeval)
    (hpre : ∀ x ∈ pre, get_timestamp x ≤ c.last_timestamp) :
    wait_next_msec c (pre ++ more) = wait_next_msec c more := by
  induction pre with
  | nil => rfl
  | cons x tl ih =>
    have hx : c.last_timestamp ≥ get_timestamp x := hpre x (List.mem_cons_self _ _)
    simp only [List.cons_append, wait_next_msec]
    rw [if_pos hx]
    exact ih (fun y hy => hpre y (List.mem_cons_of_mem _ hy))

/-- The spin loop stops at a reading that is after `last_timestamp`. -/
theorem wait_next_msec_hit (c : ctx_t) (t : timeval) (rest : List timeval)
    (ht : c.last_timestamp < get_timestamp t) :
    wait_next_msec c (t :: rest) =
      some (⟨get_timestamp t, c.work_id, 0⟩, rest) := by
  simp only [wait_next_msec]
  rw [if_neg (by omega)]

/-- The first reading after `last_timestamp` splits the clock. -/
theorem first_later_reading (last : Int) (tl : List timeval)
    (h : ∃ x ∈ tl, last < get_timestamp x) :
    ∃ pre t rest, tl = pre ++ t :: rest ∧ (∀ x ∈ pre, get_timestamp x ≤ last) ∧
      last < get_timestamp t := by
  induction tl with
  | nil => obtain ⟨x, hx, _⟩ := h; simp at hx
  | cons y tl ih =>
    by_cases hy : last < get_timestamp y
    · exact ⟨[], y, tl, rfl, by simp, hy⟩
    · obtain ⟨x, hx, hlt⟩ := h
      rcases List.mem_cons.mp hx with hx | hx
      · subst hx; exact absurd hlt hy
      · obtain ⟨pre, t, rest, htl, hpre, ht⟩ := ih ⟨x, hx, hlt⟩
        refine ⟨y :: pre, t, rest, by rw [htl]; rfl, ?_, ht⟩
        intro z hz
        rcases List.mem_cons.mp hz with hz | hz
        · subst hz; omega
        · exact hpre z hz

/-- The state update on the exhausted branch is the spin loop on the later readings. -/
theorem advance_exhausted (c : ctx_t) (tv : timeval) (tl : List timeval)
    (hfirst : get_timestamp tv = c.last_timestamp) (hidx : 63 ≤ c.index) :
    advance c (tv :: tl) = wait_next_msec c tl := by
  have h63 : ((MAX_INDEX_VAL : Nat) : Int) = 63 := by decide
  simp only [advance]
  rw [if_pos hfirst, if_neg (by omega)]

/-- C15. Ordinary allocation step of an initialised generator on the reading `tv`:
(i) if the reading equals `last_timestamp` and `index < 63`, `last_timestamp` stays and
`index` goes up by exactly 1; (ii) if the reading is after `last_timestamp`,
`last_timestamp` becomes the reading and `index` becomes 0. In both cases `work_id` and
the flag stay, exactly the reading `tv` is consumed, and the id is the packed value of
the new state. -/
theorem next_id_ordinary_step (g : Gen) (tv : timeval) (tl : List timeval)
    (hinit : g.g_inited ≠ 0) :
    (get_timestamp tv = g.g_ctx.last_timestamp ∧ g.g_ctx.index < 63 →
      next_id g (tv :: tl) =
        some (nextid ⟨g.g_ctx.last_timestamp, g.g_ctx.work_id, g.g_ctx.index + 1⟩,
          ⟨g.g_inited, ⟨g.g_ctx.last_timestamp, g.g_ctx.work_id, g.g_ctx.index + 1⟩⟩, tl)) ∧
    (g.g_ctx.last_timestamp < get_timestamp tv →
      next_id g (tv :: tl) =
        some (nextid ⟨get_timestamp tv, g.g_ctx.work_id, 0⟩,
          ⟨g.g_inited, ⟨get_timestamp tv, g.g_ctx.work_id, 0⟩⟩, tl)) := by
  have h63 : ((MAX_INDEX_VAL : Nat) : Int) = 63 := by decide
  constructor
  · rintro ⟨heq, hlt⟩
    rw [next_id_inited g _ hinit]
    simp only [advance]
    rw [if_pos heq, if_pos (by omega)]
  · intro hlt
    rw [next_id_inited g _ hinit]
    simp only [advance]
    rw [if_neg (by omega)]

/-- C15 after `init(5)` and one id at reading 7: a second call at reading 7 gives
`index = 1`, a call at reading 9 gives `last_timestamp = 9`, `index = 0`. -/
theorem next_id_ordinary_step_witness :
    next_id ⟨1, ⟨7, 5, 0⟩⟩ (at_ms 7 :: [at_ms 9]) =
      some (nextid ⟨7, 5, 0 + 1⟩, ⟨1, ⟨7, 5, 0 + 1⟩⟩, [at_ms 9]) ∧
    next_id ⟨1, ⟨7, 5, 0⟩⟩ (at_ms 9 :: []) =
      some (nextid ⟨get_timestamp (at_ms 9), 5, 0⟩,
        ⟨1, ⟨get_timestamp (at_ms 9), 5, 0⟩⟩, []) :=
  ⟨(next_id_ordinary_step ⟨1, ⟨7, 5, 0⟩⟩ (at_ms 7) [at_ms 9] (by decide)).1
     ⟨by decide, by decide⟩,
   (next_id_ordinary_step ⟨1, ⟨7, 5, 0⟩⟩ (at_ms 9) [] (by decide)).2 (by decide)⟩

/-- C16. Sequence exhaustion. For an initialised generator with `index = 63` whose first
reading `tv` equals `last_timestamp`: readings not after `last_timestamp` are skipped
without any effect; if some later reading is after `last_timestamp`, the call returns at
the first such reading `t`, with `last_timestamp = t`, `index = 0`, the same `work_id` and
flag, the id packed from `(t, work_id, 0)`, and the readings after `t` left; if no later
reading is after `last_timestamp` the call is still waiting when the readings end. -/
theorem next_id_exhausted (g : Gen) (tv : timeval) (hinit : g.g_inited ≠ 0)
    (hidx : g.g_ctx.index = 63) (hfirst : get_timestamp tv = g.g_ctx.last_timestamp) :
    (∀ (pre more : List timeval), (∀ x ∈ pre, get_timestamp x ≤ g.g_ctx.last_timestamp) →
      next_id g (tv :: (pre ++ more)) = next_id g (tv :: more)) ∧
    (∀ (tl : List timeval), (∃ x ∈ tl, g.g_ctx.last_timestamp < get_timestamp x) →
      ∃ pre t rest, tl = pre ++ t :: rest ∧
        (∀ x ∈ pre, get_timestamp x ≤ g.g_ctx.last_timestamp) ∧
        g.g_ctx.last_timestamp < get_timestamp t ∧
        next_id g (tv :: tl) =
          some (nextid ⟨get_timestamp t, g.g_ctx.work_id, 0⟩,
            ⟨g.g_inited, ⟨get_timestamp t, g.g_ctx.work_id, 0⟩⟩, rest)) ∧
    (∀ (tl : List timeval), (∀ x ∈ tl, get_timestamp x ≤ g.g_ctx.last_timestamp) →
      next_id g (tv :: tl) = none) := by
  have hadv : ∀ tl, advance g.g_ctx (tv :: tl) = wait_next_msec g.g_ctx tl :=
    fun tl => advance_exhausted g.g_ctx tv tl hfirst (by omega)
  refine ⟨?_, ?_, ?_⟩
  · intro pre more hpre
    rw [next_id_inited g _ hinit, next_id_inited g _ hinit, hadv, hadv,
      wait_next_msec_skip g.g_ctx pre more hpre]
  · intro tl hex
    obtain ⟨pre, t, rest, htl, hpre, ht⟩ := first_later_reading g.g_ctx.last_timestamp tl hex
    refine ⟨pre, t, rest, htl, hpre, ht, ?_⟩
    rw [next_id_inited g _ hinit, hadv, htl, wait_next_msec_skip g.g_ctx pre _ hpre,
      wait_next_msec_hit g.g_ctx t rest ht]
  · intro tl hall
    rw [next_id_inited g _ hinit, hadv]
    have hnone : ¬ (wait_next_msec g.g_ctx tl).isSome := by
      rw [wait_next_msec_isSome]
      rintro ⟨x, hx, hlt⟩
      have := hall x hx
      omega
    cases hw : wait_next_msec g.g_ctx tl with
    | none => rfl
    | some p => rw [hw] at hnone; simp at hnone

/-- C16 on the state `last_timestamp = 7`, `index = 63` with readings 7, 7, 6, 9, 12: the
call skips 7 and 6, stops at 9 and leaves 12. -/
theorem next_id_exhausted_witness :
    next_id ⟨1, ⟨7, 5, 63⟩⟩ [at_ms 7, at_ms 7, at_ms 6, at_ms 9, at_ms 12] =
      some (151322624, ⟨1, ⟨9, 5, 0⟩⟩, [at_ms 12]) ∧
    (next_id ⟨1, ⟨7, 5, 63⟩⟩ (at_ms 7 :: ([at_ms 7, at_ms 6] ++ [at_ms 9, at_ms 12])) =
      next_id ⟨1, ⟨7, 5, 63⟩⟩ (at_ms 7 :: [at_ms 9, at_ms 12])) ∧
    next_id ⟨1, ⟨7, 5, 63⟩⟩ (at_ms 7 :: [at_ms 7, at_ms 6]) = none :=
  ⟨by decide,
   (next_id_exhausted ⟨1, ⟨7, 5, 63⟩⟩ (at_ms 7) (by decide) (by decide) (by decide)).1
     [at_ms 7, at_ms 6] [at_ms 9, at_ms 12] (by decide),
   (next_id_exhausted ⟨1, ⟨7, 5, 63⟩⟩ (at_ms 7) (by decide) (by decide) (by decide)).2.2
     [at_ms 7, at_ms 6] (by decide)⟩

/-- C17. Sortability. On a reachable, initialised generator, when the clock readings
never go backward and all epoch-relative timestamps lie in `[0, 2^40)`, the ids returned
by successive `next_id` calls are unsigned 64-bit numbers whose numeric order is the call
order: the id of call `i` is below the id of call `j` exactly when `i < j`. -/
theorem next_ids_sorted (n : Nat) (g : Gen) (clock : List timeval) (ids : List Nat)
    (g2 : Gen) (rest2 : List timeval) (hreach : Reachable g) (hinit : g.g_inited ≠ 0)
    (hmono : NonDecreasing clock) (hrange : InRange clock)
    (h : next_ids n g clock = some (ids, g2, rest2)) :
    (∀ id ∈ ids, id < 2 ^ 64) ∧
    ∀ (i j a b : Nat), ids[i]? = some a → ids[j]? = some b → (i < j ↔ a < b) := by
  have hpw := next_ids_increasing n g clock ids g2 rest2 hinit (reachable_index g hreach)
    hmono hrange h
  obtain ⟨_, hform⟩ := next_ids_form n g clock ids g2 rest2 hinit h
  have hlt : ∀ (i j a b : Nat), i < j → ids[i]? = some a → ids[j]? = some b → a < b := by
    intro i j a b hij hi hj
    obtain ⟨hi1, hi2⟩ := List.getElem?_eq_some_iff.mp hi
    obtain ⟨hj1, hj2⟩ := List.getElem?_eq_some_iff.mp hj
    rw [← hi2, ← hj2]
    exact List.pairwise_iff_getElem.mp hpw i j hi1 hj1 hij
  constructor
  · intro id hid
    obtain ⟨c, hc, _⟩ := hform id hid
    rw [hc]
    exact nextid_lt c
  · intro i j a b hi hj
    constructor
    · intro hij
      exact hlt i j a b hij hi hj
    · intro hab
      rcases Nat.lt_trichotomy i j with hij | hij | hij
      · exact hij
      · rw [hij, hj] at hi
        simp only [Option.some.injEq] at hi
        omega
      · have := hlt j i b a hij hj hi
        omega

/-- C17 on six calls after `init(5)` with readings 7, 7, 7, 9, 9, 12: calls 2 and 4. -/
theorem next_ids_sorted_witness :
    (∀ id ∈ [117768192, 117769216, 117770240, 151322624, 151323648, 201654272],
      id < 2 ^ 64) ∧
    ((2 < 4 ↔ 117770240 < 151323648) ∧ (4 < 2 ↔ 151323648 < 117770240)) :=
  ⟨(next_ids_sorted 6 (init Gen.initial 5).2
      [at_ms 7, at_ms 7, at_ms 7, at_ms 9, at_ms 9, at_ms 12]
      [117768192, 117769216, 117770240, 151322624, 151323648, 201654272] ⟨1, ⟨12, 5, 0⟩⟩ []
      (Reachable.init _ _ Reachable.initial) (by decide) (by decide) (by decide)
      (by decide)).1,
   (next_ids_sorted 6 (init Gen.initial 5).2
      [at_ms 7, at_ms 7, at_ms 7, at_ms 9, at_ms 9, at_ms 12]
      [117768192, 117769216, 117770240, 151322624, 151323648, 201654272] ⟨1, ⟨12, 5, 0⟩⟩ []
      (Reachable.init _ _ Reachable.initial) (by decide) (by decide) (by decide)
      (by decide)).2 2 4 117770240 151323648 (by decide) (by decide),
   (next_ids_sorted 6 (init Gen.initial 5).2
      [at_ms 7, at_ms 7, at_ms 7, at_ms 9, at_ms 9, at_ms 12]
      [117768192, 117769216, 117770240, 151322624, 151323648, 201654272] ⟨1, ⟨12, 5, 0⟩⟩ []
      (Reachable.init _ _ Reachable.initial) (by decide) (by decide) (by decide)
      (by decide)).2 4 2 151323648 117770240 (by decide) (by decide)⟩

/-- C18 as stated fails in its last part: the first timestamp that no longer fits the
field is `MAX_TIMESTAMP_VAL + 1 = 2^40` milliseconds, and that is more than 25 years of
365 days (a year of 365 days has `365 * 86400000` milliseconds). -/
theorem timestamp_range_not_24_years :
    MAX_TIMESTAMP_VAL + 1 = 2 ^ 40 ∧
    ¬ (23 * (365 * 86400000) ≤ MAX_TIMESTAMP_VAL + 1 ∧
        MAX_TIMESTAMP_VAL + 1 ≤ 25 * (365 * 86400000)) := by
  decide

/-- C18, amended. The timestamp field of an id returned by an initialised `next_id`
equals the epoch-relative millisecond value `last_timestamp` exactly when that value is
in `[0, 2^40)`; the first value that no longer fits, `2^40` milliseconds after the epoch,
comes between 34 and 35 years of 365 days after the epoch. -/
theorem timestamp_field_range (g : Gen) (clock : List timeval) (id : Nat) (g1 : Gen)
    (rest : List timeval) (hinit : g.g_inited ≠ 0)
    (h : next_id g clock = some (id, g1, rest)) :
    ((ts_field id : Int) = g1.g_ctx.last_timestamp ↔
      (0 ≤ g1.g_ctx.last_timestamp ∧ g1.g_ctx.last_timestamp < 2 ^ 40)) ∧
    MAX_TIMESTAMP_VAL + 1 = 2 ^ 40 ∧
    34 * (365 * 86400000) < MAX_TIMESTAMP_VAL + 1 ∧
    MAX_TIMESTAMP_VAL + 1 < 35 * (365 * 86400000) := by
  obtain ⟨_, hid, _⟩ := next_id_some g clock hinit id g1 rest h
  refine ⟨?_, by decide, by decide, by decide⟩
  rw [hid, ts_field_nextid]
  constructor
  · intro he; omega
  · intro hr; omega

/-- C18, amended, at the last timestamp that fits and at the first that does not. -/
theorem timestamp_field_range_witness :
    (next_id ⟨1, ⟨0, 5, 0⟩⟩ [at_ms (2 ^ 40 - 1)] =
        some (18446744073693102080, ⟨1, ⟨2 ^ 40 - 1, 5, 0⟩⟩, []) ∧
      ((ts_field 18446744073693102080 : Int) = 2 ^ 40 - 1 ↔
        ((0 : Int) ≤ 2 ^ 40 - 1 ∧ (2 ^ 40 - 1 : Int) < 2 ^ 40))) ∧
    (next_id ⟨1, ⟨0, 5, 0⟩⟩ [at_ms (2 ^ 40)] = some (327680, ⟨1, ⟨2 ^ 40, 5, 0⟩⟩, []) ∧
      ((ts_field 327680 : Int) = 2 ^ 40 ↔ ((0 : Int) ≤ 2 ^ 40 ∧ (2 ^ 40 : Int) < 2 ^ 40))) :=
  ⟨⟨by decide,
    (timestamp_field_range ⟨1, ⟨0, 5, 0⟩⟩ [at_ms (2 ^ 40 - 1)] 18446744073693102080
      ⟨1, ⟨2 ^ 40 - 1, 5, 0⟩⟩ [] (by decide) (by decide)).1⟩,
   ⟨by decide,
    (timestamp_field_range ⟨1, ⟨0, 5, 0⟩⟩ [at_ms (2 ^ 40)] 327680
      ⟨1, ⟨2 ^ 40, 5, 0⟩⟩ [] (by decide) (by decide)).1⟩⟩

/-- The `int` that `init` returns is 0. -/
theorem init_fst (g : Gen) (w : Int) : (init g w).1 = 0 := by
  unfold init
  split <;> rfl

/-- The two outcomes of `linit`, with the result of `init` known to be 0. -/
theorem linit_eq (g : Gen) (args : List Int) :
    linit g args =
      match args with
      | [] => (Except.ok true, (init g 0).2)
      | id :: _ =>
        if id < 0 ∨ 255 < id then (Except.error ("Work id is in range of 0 - 1023."), g)
        else (Except.ok true, (init g (wrap16 id)).2) := by
  have h255 : ((MAX_WORKID_VAL : Nat) : Int) = 255 := by decide
  cases args with
  | nil => simp [linit, init_fst]
  | cons id tl =>
    simp only [linit, h255]
    by_cases hbad : id < 0 ∨ id > 255
    · rw [if_pos hbad, if_pos (by omega)]
    · rw [if_neg hbad, if_neg (by omega)]
      simp [init_fst]

/-- C19. The function `init` returns 0 for every state and every worker id, so `linit`
never raises "Init instance error, not enough memory."; the only error `linit` raises is
the one of the worker id range check, on an argument outside `[0, 255]`. -/
theorem init_never_fails (g : Gen) (w : Int) (args : List Int) :
    (init g w).1 = 0 ∧
    (linit g args).1 ≠ Except.error ("Init instance error, not enough memory.") ∧
    ∀ msg : String, (linit g args).1 = Except.error msg →
      msg = ("Work id is in range of 0 - 1023.") ∧
        ∃ id tl, args = id :: tl ∧ (id < 0 ∨ 255 < id) := by
  have key : ∀ msg : String, (linit g args).1 = Except.error msg →
      msg = ("Work id is in range of 0 - 1023.") ∧
        ∃ id tl, args = id :: tl ∧ (id < 0 ∨ 255 < id) := by
    intro msg hmsg
    rw [linit_eq] at hmsg
    cases args with
    | nil => simp at hmsg
    | cons id tl =>
      simp only at hmsg
      by_cases hbad : id < 0 ∨ 255 < id
      · rw [if_pos hbad] at hmsg
        simp only [Except.error.injEq] at hmsg
        exact ⟨hmsg.symm, id, tl, rfl, hbad⟩
      · rw [if_neg hbad] at hmsg
        simp at hmsg
  refine ⟨init_fst g w, ?_, key⟩
  intro hbad
  have := (key _ hbad).1
  revert this
  decide

/-- C19 on the C initial state: `init(5)` returns 0, and `init(256)` through `linit`
raises the error of the range check. -/
theorem init_never_fails_witness :
    (init Gen.initial 5).1 = 0 ∧
    (linit Gen.initial [256]).1 ≠ Except.error ("Init instance error, not enough memory.") ∧
    (("Work id is in range of 0 - 1023." : String) = ("Work id is in range of 0 - 1023.") ∧
      ∃ id tl, [(256 : Int)] = id :: tl ∧ (id < 0 ∨ 255 < id)) :=
  ⟨(init_never_fails Gen.initial 5 [256]).1,
   (init_never_fails Gen.initial 5 [256]).2.1,
   (init_never_fails Gen.initial 5 [256]).2.2 ("Work id is in range of 0 - 1023.") rfl⟩

end Snowflake

namespace Ninjalog

/-! ## The token loop as a fold -/

/-- The first token that `strsep` returns is the text before the first comma. -/
theorem strsep_fst (s : List Char) : (strsep s).1 = s.takeWhile (fun c => c != ',') := by
  induction s with
  | nil => rfl
  | cons c cs ih =>
    by_cases hc : c = ','
    · simp [strsep, hc]
    · simp [strsep, hc, ih]

/-- The text that `strsep` leaves is shorter than the text it was given. -/
theorem strsep_snd_length (s : List Char) :
    ∀ next, (strsep s).2 = some next → next.length < s.length := by
  induction s with
  | nil => intro next h; simp [strsep] at h
  | cons c cs ih =>
    intro next h
    by_cases hc : c = ','
    · simp only [strsep, hc, if_true, Option.some.injEq] at h
      rw [← h]
      simp
    · simp only [strsep, hc, if_false] at h
      have := ih next h
      simp only [List.length_cons]
      omega

/-- Splitting at commas is `strsep` repeated. -/
theorem splitOn_eq_strsep (s : List Char) :
    s.splitOn ',' =
      (strsep s).1 :: (match (strsep s).2 with
        | none => []
        | some next => next.splitOn ',') := by
  induction s with
  | nil => rfl
  | cons c cs ih =>
    by_cases hc : c = ','
    · simp [List.splitOn, strsep, hc]
    · have hb : (c == ',') = false := by simpa using hc
      simp only [List.splitOn] at ih ⊢
      rw [List.splitOnP_cons, hb, ih]
      simp [strsep, hc, List.modifyHead]

/-- The tokens after the ident are the tokens of the text that the first `strsep` leaves. -/
theorem option_tokens_eq (s : List Char) :
    option_tokens s =
      match (strsep s).2 with
      | none => []
      | some next => next.splitOn ',' := by
  unfold option_tokens
  rw [splitOn_eq_strsep]
  rfl

/-- With enough iterations the token loop is the fold of its body over the tokens. -/
theorem option_loop_eq (k : syslog_h) :
    ∀ (fuel : Nat) (next : List Char) (st : parse_state), next.length < fuel →
      option_loop k fuel (some next) st =
        (next.splitOn ',').foldl (fun acc tok => apply_option k tok acc) st := by
  intro fuel
  induction fuel with
  | zero => intro next st h; omega
  | succ fuel ih =>
    intro next st h
    rw [splitOn_eq_strsep next]
    simp only [option_loop, List.foldl_cons]
    cases hn : (strsep next).2 with
    | none =>
      cases fuel with
      | zero => rfl
      | succ f => rfl
    | some rest =>
      have hlen := strsep_snd_length next rest hn
      rw [ih rest _ (by omega)]

/-- A token that is not in `coptions` changes nothing. -/
theorem spec_step_unrecognised (k : syslog_h) (tok : List Char) (st : parse_state)
    (h : tok ∉ coptions) : spec_step k st tok = st := by
  simp only [coptions, List.mem_cons, List.mem_singleton, not_or, List.not_mem_nil,
    not_false_eq_true, and_true] at h
  obtain ⟨h1, h2, h3, h4, h5, h6, h7, h8, h9, h10, h11, h12, h13, h14, h15, h16, h17, h18,
    h19, h20, h21⟩ := h
  unfold spec_step priority_named flag_named facility_named
  simp only [h1, h2, h3, h4, h5, h6, h7, h8, h9, h10, h11, h12, h13, h14, h15, h16, h17, h18,
    h19, h20, h21, if_false]

/-- The search finds nothing for a token that is not in the table. -/
theorem find_option_none (opt : List Char) :
    ∀ (table : List (List Char)) (pos : Nat), opt ∉ table → find_option opt table pos = none := by
  intro table
  induction table with
  | nil => intro pos _; rfl
  | cons n more ih =>
    intro pos h
    simp only [List.mem_cons, not_or] at h
    simp only [find_option]
    rw [if_neg h.1]
    exact ih (pos + 1) h.2

/-- The body of the token loop does what the step of the specification does. -/
theorem apply_option_eq_spec (k : syslog_h) (tok : List Char) (st : parse_state) :
    apply_option k tok st = spec_step k st tok := by
  by_cases hmem : tok ∈ coptions
  · simp only [coptions, List.mem_cons, List.mem_singleton, List.not_mem_nil, or_false] at hmem
    rcases hmem with h | h | h | h | h | h | h | h | h | h | h | h | h | h | h | h | h | h |
      h | h | h <;> (subst h; rfl)
  · rw [spec_step_unrecognised k tok st hmem]
    unfold apply_option
    rw [find_option_none tok coptions 0 hmem]

/-- Dropping the unrecognised tokens does not change the fold. -/
theorem foldl_filter_recognised (k : syslog_h) (toks : List (List Char)) :
    ∀ st : parse_state,
      (toks.filter recognised).foldl (spec_step k) st = toks.foldl (spec_step k) st := by
  induction toks with
  | nil => intro st; rfl
  | cons t ts ih =>
    intro st
    by_cases ht : t ∈ coptions
    · have hr : recognised t = true := by simp [recognised, ht]
      rw [List.filter_cons_of_pos hr, List.foldl_cons, List.foldl_cons, ih]
    · have hr : ¬ recognised t = true := by simp [recognised, ht]
      rw [List.filter_cons_of_neg hr, List.foldl_cons, spec_step_unrecognised k t st ht, ih]

/-- No token contains a comma. -/
theorem splitOn_no_comma (s : List Char) : ∀ t ∈ s.splitOn ',', ',' ∉ t := by
  induction s with
  | nil => intro t ht; simp at ht; rw [ht]; simp
  | cons c cs ih =>
    intro t ht
    rw [splitOn_eq_strsep] at ht ih
    by_cases hc : c = ','
    · simp only [strsep, hc, if_true, List.mem_cons] at ht
      rcases ht with ht | ht
      · rw [ht]; simp
      · rw [splitOn_eq_strsep] at ht
        exact ih t ht
    · simp only [strsep, hc, if_false, List.mem_cons] at ht
      rcases ht with ht | ht
      · have h1 := ih (strsep cs).1 (List.mem_cons_self _ _)
        rw [ht]
        simp only [List.mem_cons, not_or]
        exact ⟨fun h => hc h.symm, h1⟩
      · exact ih t (List.mem_cons_of_mem _ ht)

/-- The result of `ninjalog_init` on a parameter that is not `NULL`, with the token loop
written as the fold of the specification over the tokens after the ident. -/
theorem ninjalog_init_some (k : syslog_h) (config : ninjalog_config) (parm : List Char) :
    ninjalog_init k config (some parm) =
      ({ ident := parm.takeWhile (fun c => c != ','),
         option :=
           if ((option_tokens parm).foldl (spec_step k)
                ⟨config.priority, 0, k.LOG_LOCAL6⟩).options = 0
           then k.LOG_NDELAY ||| k.LOG_PID
           else ((option_tokens parm).foldl (spec_step k)
                ⟨config.priority, 0, k.LOG_LOCAL6⟩).options,
         facility := ((option_tokens parm).foldl (spec_step k)
                ⟨config.priority, 0, k.LOG_LOCAL6⟩).facility },
       { priority := ((option_tokens parm).foldl (spec_step k)
                ⟨config.priority, 0, k.LOG_LOCAL6⟩).priority,
         programname := some (parm.takeWhile (fun c => c != ',')) }) := by
  have hloop : option_loop k (parm.length + 1) (strsep parm).2
      ⟨config.priority, 0, k.LOG_LOCAL6⟩ =
      (option_tokens parm).foldl (spec_step k) ⟨config.priority, 0, k.LOG_LOCAL6⟩ := by
    have hfun : (fun acc tok => apply_option k tok acc) = spec_step k := by
      funext acc tok
      exact apply_option_eq_spec k tok acc
    rw [option_tokens_eq]
    cases hn : (strsep parm).2 with
    | none => rfl
    | some next =>
      have hlen := strsep_snd_length parm next hn
      rw [option_loop_eq k _ next _ (by omega), hfun]
  simp only [ninjalog_init]
  rw [hloop, strsep_fst]

/-- The text is its ident followed by its option tokens. -/
theorem splitOn_eq_ident_tokens (s : List Char) :
    s.splitOn ',' = s.takeWhile (fun c => c != ',') :: option_tokens s := by
  rw [option_tokens_eq, ← strsep_fst]
  exact splitOn_eq_strsep s

/-- A text without a comma has no option token. -/
theorem option_tokens_no_comma (s : List Char) (h : ',' ∉ s) : option_tokens s = [] := by
  unfold option_tokens List.splitOn
  rw [List.splitOnP_eq_single]
  · rfl
  · intro x hx hp
    have : x = ',' := by simpa using hp
    rw [this] at hx
    exact h hx

/-- The tokens after an ident without comma are the tokens of the text after the comma
that ends it. -/
theorem option_tokens_append (ident rest : List Char) (h : ',' ∉ ident) :
    option_tokens (ident ++ ',' :: rest) = rest.splitOn ',' := by
  unfold option_tokens List.splitOn
  rw [List.splitOnP_first]
  · rfl
  · intro x hx hp
    have : x = ',' := by simpa using hp
    rw [this] at hx
    exact h hx
  · simp

/-- Tokens that are not recognised leave the fold where it started. -/
theorem foldl_unrecognised (k : syslog_h) (toks : List (List Char)) :
    ∀ st : parse_state, (∀ tok ∈ toks, tok ∉ coptions) → toks.foldl (spec_step k) st = st := by
  induction toks with
  | nil => intro st _; rfl
  | cons t ts ih =>
    intro st h
    rw [List.foldl_cons, spec_step_unrecognised k t st (h t (List.mem_cons_self _ _))]
    exact ih st (fun tok htok => h tok (List.mem_cons_of_mem _ htok))

/-- Deleting the unrecognised tokens keeps the ident and keeps the recognised tokens. -/
theorem splitOn_delete_unrecognised (parm : List Char) :
    (delete_unrecognised parm).splitOn ',' =
      parm.takeWhile (fun c => c != ',') :: (option_tokens parm).filter recognised := by
  unfold delete_unrecognised
  apply List.splitOn_intercalate
  · intro l hl
    apply splitOn_no_comma parm
    rw [splitOn_eq_ident_tokens]
    rcases List.mem_cons.mp hl with hl | hl
    · rw [hl]; exact List.mem_cons_self _ _
    · exact List.mem_cons_of_mem _ (List.mem_of_mem_filter hl)
  · simp

/-! ## The claims on the logger -/

/-- C12. Logger defaults. When no token after the first comma is a recognised name
(a parameter without comma has no such token at all), `ninjalog_init` calls `openlog`
with the text before the first comma as ident, options `LOG_NDELAY | LOG_PID` and
facility `LOG_LOCAL6`, and leaves the priority of the configuration as it was, which is
`LOG_INFO` after `ninjalog_create`. With a `NULL` parameter the ident is "skynet", with
the same options and facility. -/
theorem ninjalog_init_defaults (k : syslog_h) (config : ninjalog_config) (parm : List Char)
    (hno : ∀ tok ∈ option_tokens parm, tok ∉ coptions) :
    ninjalog_init k config (some parm) =
      (⟨parm.takeWhile (fun c => c != ','), k.LOG_NDELAY ||| k.LOG_PID, k.LOG_LOCAL6⟩,
       ⟨config.priority, some (parm.takeWhile (fun c => c != ','))⟩) ∧
    (ninjalog_init k (ninjalog_create k) (some parm)).2.priority = k.LOG_INFO ∧
    ninjalog_init k config none =
      (⟨"skynet".toList, k.LOG_NDELAY ||| k.LOG_PID, k.LOG_LOCAL6⟩, config) ∧
    (',' ∉ parm → option_tokens parm = []) := by
  have hfold : ∀ st : parse_state, (option_tokens parm).foldl (spec_step k) st = st :=
    fun st => foldl_unrecognised k (option_tokens parm) st hno
  refine ⟨?_, ?_, rfl, option_tokens_no_comma parm⟩
  · rw [ninjalog_init_some, hfold]
    simp
  · rw [ninjalog_init_some, hfold]
    rfl

/-- C12 on the parameters "app" and "app,,debug, PID" with the glibc constants. -/
theorem ninjalog_init_defaults_witness :
    (ninjalog_init glibc (ninjalog_create glibc) (some "app".toList) =
        (⟨"app".toList, 9, 176⟩, ⟨6, some "app".toList⟩) ∧
      ninjalog_init glibc (ninjalog_create glibc) (some "app,,debug, PID".toList) =
        (⟨"app".toList, 9, 176⟩, ⟨6, some "app".toList⟩)) ∧
    (ninjalog_init glibc (ninjalog_create glibc) (some "app,,debug, PID".toList) =
      (⟨"app,,debug, PID".toList.takeWhile (fun c => c != ','),
        glibc.LOG_NDELAY ||| glibc.LOG_PID, glibc.LOG_LOCAL6⟩,
       ⟨(ninjalog_create glibc).priority,
        some ("app,,debug, PID".toList.takeWhile (fun c => c != ','))⟩)) :=
  ⟨by decide,
   (ninjalog_init_defaults glibc (ninjalog_create glibc) "app,,debug, PID".toList
     (by decide)).1⟩

/-- C13. Logger option parsing. The priority, options and facility that `ninjalog_init`
ends with are those of the fold of the specification over the tokens after the ident, in
order (the options then replaced by the default when they are 0). A token that is not one
of the 21 names changes nothing: so the empty token, a differently-cased name and a name
with a space around it change nothing, and deleting every unrecognised token from the
parameter yields the same result. The ident is not among the tokens folded, whatever it
spells. -/
theorem ninjalog_init_fold (k : syslog_h) (config : ninjalog_config) (parm : List Char) :
    ninjalog_init k config (some parm) =
      (⟨parm.takeWhile (fun c => c != ','),
        if (spec_parse k config parm).options = 0 then k.LOG_NDELAY ||| k.LOG_PID
        else (spec_parse k config parm).options,
        (spec_parse k config parm).facility⟩,
       ⟨(spec_parse k config parm).priority, some (parm.takeWhile (fun c => c != ','))⟩) ∧
    (∀ (tok : List Char) (st : parse_state), tok ∉ coptions → spec_step k st tok = st) ∧
    ("".toList ∉ coptions ∧ "perror".toList ∉ coptions ∧ " PERROR".toList ∉ coptions ∧
      "PERROR ".toList ∉ coptions) ∧
    ninjalog_init k config (some (delete_unrecognised parm)) =
      ninjalog_init k config (some parm) ∧
    (∀ (ident rest : List Char), ',' ∉ ident →
      option_tokens ident = [] ∧ option_tokens (ident ++ ',' :: rest) = rest.splitOn ',') := by
  refine ⟨?_, fun tok st h => spec_step_unrecognised k tok st h, by decide, ?_,
    fun ident rest h => ⟨option_tokens_no_comma ident h, option_tokens_append ident rest h⟩⟩
  · rw [ninjalog_init_some]
    rfl
  · have hsplit := splitOn_delete_unrecognised parm
    rw [splitOn_eq_ident_tokens] at hsplit
    simp only [List.cons.injEq] at hsplit
    rw [ninjalog_init_some, ninjalog_init_some, hsplit.1, hsplit.2, foldl_filter_recognised]

/-- C13 on "PID,, perror,Pid,USER,CONS,EMERG,x" with the glibc constants: the ident `PID`
is not taken as an option, the options are `LOG_CONS` alone, the facility `LOG_USER`, the
priority `LOG_EMERG`; the parameter with the unrecognised tokens deleted is
"PID,USER,CONS,EMERG" and gives the same result. -/
theorem ninjalog_init_fold_witness :
    ninjalog_init glibc (ninjalog_create glibc)
        (some "PID,, perror,Pid,USER,CONS,EMERG,x".toList) =
      (⟨"PID".toList, 2, 8⟩, ⟨0, some "PID".toList⟩) ∧
    delete_unrecognised "PID,, perror,Pid,USER,CONS,EMERG,x".toList =
      "PID,USER,CONS,EMERG".toList ∧
    spec_step glibc ⟨6, 0, 176⟩ "Pid".toList = ⟨6, 0, 176⟩ ∧
    ninjalog_init glibc (ninjalog_create glibc)
        (some (delete_unrecognised "PID,, perror,Pid,USER,CONS,EMERG,x".toList)) =
      ninjalog_init glibc (ninjalog_create glibc)
        (some "PID,, perror,Pid,USER,CONS,EMERG,x".toList) ∧
    (option_tokens "PID".toList = [] ∧
      option_tokens ("PID".toList ++ ',' :: "CONS".toList) = "CONS".toList.splitOn ',') :=
  ⟨by decide, by decide,
   (ninjalog_init_fold glibc (ninjalog_create glibc)
      "PID,, perror,Pid,USER,CONS,EMERG,x".toList).2.1 "Pid".toList ⟨6, 0, 176⟩ (by decide),
   (ninjalog_init_fold glibc (ninjalog_create glibc)
      "PID,, perror,Pid,USER,CONS,EMERG,x".toList).2.2.2.1,
   (ninjalog_init_fold glibc (ninjalog_create glibc)
      "PID,, perror,Pid,USER,CONS,EMERG,x".toList).2.2.2.2 "PID".toList "CONS".toList
      (by decide)⟩

/-- The flag that the step of the specification ORs into the options. -/
theorem spec_step_options (k : syslog_h) (st : parse_state) (tok : List Char) :
    (spec_step k st tok).options =
      match flag_named k tok with
      | some flag => st.options ||| flag
      | none => st.options := by
  by_cases hmem : tok ∈ coptions
  · simp only [coptions, List.mem_cons, List.mem_singleton, List.not_mem_nil, or_false] at hmem
    rcases hmem with h | h | h | h | h | h | h | h | h | h | h | h | h | h | h | h | h | h |
      h | h | h <;> (subst h; rfl)
  · rw [spec_step_unrecognised k tok st hmem]
    have hnone : flag_named k tok = none := by
      simp only [coptions, List.mem_cons, List.mem_singleton, not_or, List.not_mem_nil,
        not_false_eq_true, and_true] at hmem
      obtain ⟨_, _, _, _, _, _, _, _, h9, h10, h11, h12, _⟩ := hmem
      unfold flag_named
      simp only [h9, h10, h11, h12, if_false]
    rw [hnone]

/-- The options after the fold are the OR of the flags named, in order. -/
theorem foldl_options (k : syslog_h) (toks : List (List Char)) :
    ∀ st : parse_state,
      (toks.foldl (spec_step k) st).options =
        (toks.filterMap (flag_named k)).foldl (fun a b => a ||| b) st.options := by
  induction toks with
  | nil => intro st; rfl
  | cons t ts ih =>
    intro st
    rw [List.foldl_cons, ih, spec_step_options]
    cases hf : flag_named k t with
    | none => rw [List.filterMap_cons_none hf]
    | some flag => rw [List.filterMap_cons_some hf, List.foldl_cons]

/-- A bitwise OR is 0 only when both operands are 0. -/
theorem or_eq_zero (a b : Nat) (h : a ||| b = 0) : a = 0 ∧ b = 0 := by
  have key : ∀ i, a.testBit i = false ∧ b.testBit i = false := by
    intro i
    have := congrArg (fun n => Nat.testBit n i) h
    simpa [Nat.testBit_or] using this
  constructor
  · apply Nat.eq_of_testBit_eq
    intro i
    rw [(key i).1, Nat.zero_testBit]
  · apply Nat.eq_of_testBit_eq
    intro i
    rw [(key i).2, Nat.zero_testBit]

/-- An OR of flags is 0 only when it started from 0 and every flag is 0. -/
theorem foldl_or_eq_zero (flags : List Nat) :
    ∀ acc : Nat, flags.foldl (fun a b => a ||| b) acc = 0 → acc = 0 ∧ ∀ f ∈ flags, f = 0 := by
  induction flags with
  | nil => intro acc h; exact ⟨h, by simp⟩
  | cons f fs ih =>
    intro acc h
    rw [List.foldl_cons] at h
    obtain ⟨h1, h2⟩ := ih _ h
    obtain ⟨ha, hf⟩ := or_eq_zero acc f h1
    refine ⟨ha, ?_⟩
    intro x hx
    rcases List.mem_cons.mp hx with hx | hx
    · rw [hx]; exact hf
    · exact h2 x hx

/-- A flag named by a token is one of the four open-option constants. -/
theorem flag_named_mem (k : syslog_h) (tok : List Char) (flag : Nat)
    (h : flag_named k tok = some flag) :
    flag = k.LOG_CONS ∨ flag = k.LOG_NDELAY ∨ flag = k.LOG_PERROR ∨ flag = k.LOG_PID := by
  unfold flag_named at h
  split_ifs at h <;> simp only [Option.some.injEq] at h
  · exact Or.inl h.symm
  · exact Or.inr (Or.inl h.symm)
  · exact Or.inr (Or.inr (Or.inl h.symm))
  · exact Or.inr (Or.inr (Or.inr h.symm))

/-- C20. Explicit options replace the default. With open-option constants that are not 0
(as in every `<syslog.h>`): when at least one token after the ident is `CONS`, `NDELAY`,
`PERROR` or `PID`, the options passed to `openlog` are exactly the bitwise OR of the flags
named, without the default `LOG_NDELAY | LOG_PID`; when no such token is present the
options are `LOG_NDELAY | LOG_PID`; and the options parsed are 0, which is what makes the
code take the default, if and only if no such token is present. -/
theorem ninjalog_init_options (k : syslog_h) (config : ninjalog_config) (parm : List Char)
    (hflags : k.LOG_CONS ≠ 0 ∧ k.LOG_NDELAY ≠ 0 ∧ k.LOG_PERROR ≠ 0 ∧ k.LOG_PID ≠ 0) :
    ((∃ tok ∈ option_tokens parm, (flag_named k tok).isSome) →
      (ninjalog_init k config (some parm)).1.option =
        (named_flags k parm).foldl (fun a b => a ||| b) 0) ∧
    ((¬ ∃ tok ∈ option_tokens parm, (flag_named k tok).isSome) →
      (ninjalog_init k config (some parm)).1.option = k.LOG_NDELAY ||| k.LOG_PID) ∧
    ((spec_parse k config parm).options = 0 ↔
      ¬ ∃ tok ∈ option_tokens parm, (flag_named k tok).isSome) := by
  have hopt : (spec_parse k config parm).options =
      (named_flags k parm).foldl (fun a b => a ||| b) 0 := by
    unfold spec_parse named_flags
    rw [foldl_options]
  have hnil : named_flags k parm = [] ↔
      ¬ ∃ tok ∈ option_tokens parm, (flag_named k tok).isSome := by
    unfold named_flags
    rw [List.filterMap_eq_nil_iff]
    constructor
    · rintro h ⟨tok, htok, hs⟩
      rw [h tok htok] at hs
      simp at hs
    · intro h tok htok
      cases hf : flag_named k tok with
      | none => rfl
      | some flag => exact absurd ⟨tok, htok, by rw [hf]; rfl⟩ h
  have hzero : (spec_parse k config parm).options = 0 ↔ named_flags k parm = [] := by
    rw [hopt]
    constructor
    · intro h0
      obtain ⟨_, hall⟩ := foldl_or_eq_zero _ 0 h0
      cases hnf : named_flags k parm with
      | nil => rfl
      | cons f fs =>
        have hf0 : f = 0 := hall f (by rw [hnf]; exact List.mem_cons_self _ _)
        have hmem : f ∈ (option_tokens parm).filterMap (flag_named k) := by
          have : f ∈ named_flags k parm := by rw [hnf]; exact List.mem_cons_self _ _
          exact this
        obtain ⟨tok, _, htok⟩ := List.mem_filterMap.mp hmem
        rcases flag_named_mem k tok f htok with h | h | h | h
        · exact absurd (h ▸ hf0) hflags.1
        · exact absurd (h ▸ hf0) hflags.2.1
        · exact absurd (h ▸ hf0) hflags.2.2.1
        · exact absurd (h ▸ hf0) hflags.2.2.2
    · intro h
      rw [h]
      rfl
  have hcall : (ninjalog_init k config (some parm)).1.option =
      if (spec_parse k config parm).options = 0 then k.LOG_NDELAY ||| k.LOG_PID
      else (spec_parse k config parm).options := by
    rw [ninjalog_init_some]
    rfl
  refine ⟨?_, ?_, hzero.trans hnil⟩
  · intro hex
    have hne : ¬ (spec_parse k config parm).options = 0 :=
      fun h0 => ((hzero.trans hnil).mp h0) hex
    rw [hcall, if_neg hne, hopt]
  · intro hnex
    have h0 : (spec_parse k config parm).options = 0 := (hzero.trans hnil).mpr hnex
    rw [hcall, if_pos h0]

/-- C20 on "app,PERROR" and on "app,DEBUG" with the glibc constants: options `LOG_PERROR`
alone, and the default. -/
theorem ninjalog_init_options_witness :
    (ninjalog_init glibc (ninjalog_create glibc) (some "app,PERROR".toList) =
        (⟨"app".toList, 0x20, 176⟩, ⟨6, some "app".toList⟩) ∧
      (ninjalog_init glibc (ninjalog_create glibc) (some "app,PERROR".toList)).1.option =
        (named_flags glibc "app,PERROR".toList).foldl (fun a b => a ||| b) 0) ∧
    (ninjalog_init glibc (ninjalog_create glibc) (some "app,DEBUG".toList)).1.option =
      glibc.LOG_NDELAY ||| glibc.LOG_PID :=
  ⟨⟨by decide,
    (ninjalog_init_options glibc (ninjalog_create glibc) "app,PERROR".toList
      (by decide)).1 (by decide)⟩,
   (ninjalog_init_options glibc (ninjalog_create glibc) "app,DEBUG".toList
      (by decide)).2.1 (by decide)⟩

end Ninjalog
